import Mathlib

/-!
Verification development for the prmptr prompt-chaining engine
(source files `utils.py` and `prmptr.py`).

The Python source is shallowly embedded: dictionaries become association
lists (with first-match lookup and in-place-overwrite update, matching
`dict` semantics for the key-distinct lists the program builds), strings
become Lean `String`s (operated on through their `List Char` data where a
character-level scan is modelled), recursion that Python bounds only by
the call stack is given an explicit fuel parameter (an artifact of the
embedding: exhausted fuel is reported as a distinguished outcome, and all
theorems about successful runs are conditioned on success, never on the
particular fuel value), and Python exceptions / `None` returns both abort
a run, modelled with `Except`/`Option` results.
-/

/-- Reserved node name for the initial user input (`utils.py`, line 8). -/
def INPUT_NODE_NAME : String := "input text"

/-- A dependency graph: fragment name to the ordered list of referenced
names, as built by `build_dependency_graph` (`utils.py`). -/
abbrev Graph := List (String × List String)

/-- First-match association-list lookup, the embedding of Python `dict`
read access (`d[k]` / `d.get(k)` / `k in d`). -/
def lookupA {α : Type} : List (String × α) → String → Option α
  | [], _ => none
  | (k, v) :: rest, n => if k = n then some v else lookupA rest n

/-- In-place overwrite-or-append update, the embedding of Python
`d[k] = v`: an existing key keeps its position and gets the new value,
a new key is appended at the end (insertion order). -/
def updateA {α : Type} : List (String × α) → String → α → List (String × α)
  | [], k, v => [(k, v)]
  | (k', v') :: rest, k, v =>
    if k' = k then (k', v) :: rest else (k', v') :: updateA rest k v

/-- Membership of a name among the graph's keys (`node in graph`). -/
def isKey (g : Graph) (n : String) : Bool := (lookupA g n).isSome

/-- Dependency list of a node, empty for non-keys (`graph.get(node, [])`). -/
def depsOf (g : Graph) (n : String) : List String := (lookupA g n).getD []

/-- Failure conditions of `resolve_execution_order` (`utils.py`): the
`ValueError` for a missing `[[output]]` variable and the `ValueError` for a
circular dependency, which names the offending node.  `fuelExhausted` is an
artifact of the fuel-bounded embedding of the recursion and corresponds to
no Python behaviour at any sufficient fuel. -/
inductive ResolveError where
  | missingOutputNode : ResolveError
  | cyclicDependency : String → ResolveError
  | fuelExhausted : ResolveError
deriving DecidableEq, Repr

/-- Visit a list of dependencies left to right (the `for dependency in
graph[node]` loop inside `visit` of `resolve_execution_order`), with
`visit1` the visit of a single dependency, threading the
`(order, visited)` state and aborting on the first error. -/
def visitListGo
    (visit1 : String → List String × List String →
      Except ResolveError (List String × List String)) :
    List String → List String × List String →
      Except ResolveError (List String × List String)
  | [], st => .ok st
  | d :: ds, st =>
    match visit1 d st with
    | .error e => .error e
    | .ok st2 => visitListGo visit1 ds st2

/-- Embedding of the inner `visit` function of `resolve_execution_order`
(`utils.py`, lines 109-130).  The state is the pair `(order, visited)`;
the active recursion path `visiting` is passed downward (Python adds the
node before recursing and removes it afterwards, so each frame sees
exactly the path above it).  A node already fully visited returns at once;
a node on the active path raises the circular-dependency error; a graph
key pushes itself on the path, visits its dependencies in order, then is
marked visited and appended to the order; a non-key is only marked
visited. -/
def visitNode (g : Graph) : Nat → String → List String →
    List String × List String →
      Except ResolveError (List String × List String)
  | 0, _, _, _ => .error .fuelExhausted
  | f + 1, node, visiting, st =>
    if node ∈ st.2 then .ok st
    else if node ∈ visiting then .error (.cyclicDependency node)
    else
      match lookupA g node with
      | some deps =>
        match visitListGo (fun d st' => visitNode g f d (node :: visiting) st') deps st with
        | .error e => .error e
        | .ok st2 => .ok (st2.1 ++ [node], node :: st2.2)
      | none => .ok (st.1, node :: st.2)

/-- Fuel that strictly dominates the recursion depth of `visit`: the
path of a successful or cycle-raising traversal holds distinct graph
keys plus at most one further frame. -/
def resolveFuel (g : Graph) : Nat := g.length + 2

/-- Embedding of `resolve_execution_order` (`utils.py`, lines 84-134):
fail if `output` is not a key, otherwise depth-first search from
`output` and return the accumulated order. -/
def resolve_execution_order (g : Graph) : Except ResolveError (List String) :=
  if lookupA g "output" = none then .error .missingOutputNode
  else
    match visitNode g (resolveFuel g) "output" [] ([], []) with
    | .error e => .error e
    | .ok st => .ok st.1

/-- Maximum of the depths of a dependency list, computed left to right
(the generator inside `max(calculate_depth(dep) for dep in dependencies)`),
with `comp1` the depth computation of a single dependency, threading the
memo.  The empty case returns 0 and is never reached from `calcDepth`,
which only calls this on a non-empty list; `Nat.max d 0 = d` keeps the
non-empty behaviour identical to Python's `max`. -/
def maxListGo (comp1 : String → List (String × Nat) → Option (Nat × List (String × Nat))) :
    List String → List (String × Nat) → Option (Nat × List (String × Nat))
  | [], memo => some (0, memo)
  | d :: ds, memo =>
    match comp1 d memo with
    | none => none
    | some (dd, memo') =>
      match maxListGo comp1 ds memo' with
      | none => none
      | some (m, memo'') => some (Nat.max dd m, memo'')

/-- Embedding of `calculate_depth` inside `find_parallel_groups`
(`utils.py`, lines 157-172), threading the `depths` memo dictionary as an
insertion-ordered association list.  A memoised node returns its stored
depth; the reserved input name and non-keys get depth 0; a key with an
empty dependency list gets depth 0; otherwise the depth is one plus the
maximum of all dependencies' depths.  Python's unbounded recursion (which
never terminates on a cyclic graph) is bounded by fuel; `none` reports
exhaustion. -/
def calcDepth (g : Graph) : Nat → String → List (String × Nat) →
    Option (Nat × List (String × Nat))
  | 0, _, _ => none
  | f + 1, node, memo =>
    match lookupA memo node with
    | some d => some (d, memo)
    | none =>
      if node = INPUT_NODE_NAME ∨ lookupA g node = none then
        some (0, memo ++ [(node, 0)])
      else
        match depsOf g node with
        | [] => some (0, memo ++ [(node, 0)])
        | d :: ds =>
          match maxListGo (calcDepth g f) (d :: ds) memo with
          | none => none
          | some (m, memo') => some (m + 1, memo' ++ [(node, m + 1)])

/-- The `for node in graph: calculate_depth(node)` loop (`utils.py`,
lines 175-176), forcing a depth for every key in graph order. -/
def computeDepthsGo (g : Graph) (fuel : Nat) : List String → List (String × Nat) →
    Option (List (String × Nat))
  | [], memo => some memo
  | n :: ns, memo =>
    match calcDepth g fuel n memo with
    | none => none
    | some (_, memo') => computeDepthsGo g fuel ns memo'

/-- Fuel that strictly dominates the depth-recursion nesting on any graph
on which Python's recursion terminates. -/
def depthFuel (g : Graph) : Nat := g.length + 2

/-- The fully populated `depths` dictionary of `find_parallel_groups`,
in insertion order. -/
def computeDepths (g : Graph) : Option (List (String × Nat)) :=
  computeDepthsGo g (depthFuel g) (g.map Prod.fst) []

/-- The depth the Depth Grouper computes for one node (a view onto the
memo used by `find_parallel_groups`). -/
def depthv (g : Graph) (n : String) : Option Nat :=
  (computeDepths g).bind fun memo => lookupA memo n

/-- The `depths.items()` entries that survive the grouping filter
(`utils.py`, lines 180-182): not the reserved input name and a graph key,
kept in memo insertion order. -/
def filteredNodes (g : Graph) (memo : List (String × Nat)) : List (String × Nat) :=
  memo.filter fun p => p.1 ≠ INPUT_NODE_NAME ∧ isKey g p.1

/-- Insert a depth value into a sorted duplicate-free list of depth values
(used to model `sorted(depth_groups.keys())`, whose input keys are
distinct). -/
def insertDepthKey (d : Nat) : List Nat → List Nat
  | [] => [d]
  | x :: xs =>
    if d < x then d :: x :: xs
    else if d = x then x :: xs
    else x :: insertDepthKey d xs

/-- The sorted list of distinct depth values present among the grouped
nodes (`sorted(depth_groups.keys())`). -/
def sortedDepthKeys (ds : List Nat) : List Nat :=
  ds.foldl (fun acc d => insertDepthKey d acc) []

/-- Embedding of `find_parallel_groups` (`utils.py`, lines 137-185):
empty result when `output` is not a key; otherwise compute every key's
depth, drop the reserved input name and non-keys, bucket by depth
(each bucket in memo insertion order, as `defaultdict(list).append`
produces) and return the buckets by ascending depth.  `none` only
reports fuel exhaustion, i.e. a run on which Python's recursion would
not terminate. -/
def find_parallel_groups (g : Graph) : Option (List (List String)) :=
  if lookupA g "output" = none then some []
  else
    match computeDepths g with
    | none => none
    | some memo =>
      let filtered := filteredNodes g memo
      let ds := sortedDepthKeys (filtered.map Prod.snd)
      some (ds.map fun d => (filtered.filter fun p => p.2 = d).map Prod.fst)


/-- Character-level scan for the regex `\[\[([^\]]+)\]\]` used by
`find_dependencies` (`utils.py`, line 61): at each position, a literal
`[[` followed by a non-empty run of non-`]` characters followed by `]]`
is a match (the character class cannot backtrack into a shorter capture,
since every captured character is a non-`]` while the next two characters
must both be `]`); matches are non-overlapping and the scan resumes after
the closing brackets, otherwise it advances one character. -/
def findDepsL : Nat → List Char → List String
  | 0, _ => []
  | _, [] => []
  | fuel + 1, c :: rest =>
    if c = '[' ∧ rest.head? = some '[' then
      if rest.tail.takeWhile (· ≠ ']') ≠ [] ∧
          (rest.tail.dropWhile (· ≠ ']')).take 2 = [']', ']'] then
        String.mk (rest.tail.takeWhile (· ≠ ']')) ::
          findDepsL fuel ((rest.tail.dropWhile (· ≠ ']')).drop 2)
      else findDepsL fuel rest
    else findDepsL fuel rest

/-- Embedding of `find_dependencies` (`utils.py`, lines 51-61): the
captured names, verbatim (no whitespace trimming), in scan order, with
duplicates kept.  The fuel (one unit per scan step, while every step
strictly shortens the text) is an artifact of the embedding; the text's
length is always sufficient. -/
def find_dependencies (prompt_text : String) : List String :=
  findDepsL prompt_text.data.length prompt_text.data

/-- Embedding of `build_dependency_graph` (`utils.py`, lines 64-81):
apply the extractor to every definition, keeping key order. -/
def build_dependency_graph (prompt_definitions : List (String × String)) : Graph :=
  prompt_definitions.map fun p => (p.1, find_dependencies p.2)

/-- The whitespace class of Python's `\s` and of `str.strip()` for the
ASCII range. -/
def pySpace (c : Char) : Bool :=
  c = ' ' ∨ c = '\t' ∨ c = '\n' ∨ c = '\r' ∨ c = '\x0b' ∨ c = '\x0c'

/-- Python `str.strip()` on the character list: drop whitespace from both
ends. -/
def stripChars (l : List Char) : List Char :=
  ((l.dropWhile pySpace).reverse.dropWhile pySpace).reverse

/-- Python `str.strip()` on strings. -/
def stripString (s : String) : String :=
  String.mk (stripChars s.data)

/-- After the capture of a definition marker, the regex `\]\]\s*=`
requires the two closing brackets, optional whitespace (which may include
newlines) and a literal `=`; on success return the remainder after the
`=` (the `match.end()` position of `re.finditer`). -/
def defMarkerTail (l : List Char) : Option (List Char) :=
  if l.take 2 = [']', ']'] then
    match (l.drop 2).dropWhile pySpace with
    | '=' :: r => some r
    | _ => none
  else none

/-- The lazy group `(.+?)` of the definition regex `\[\[(.+?)\]\]\s*=`
(`utils.py`, line 27): starting right after `[[`, extend the capture one
non-newline character at a time (`.` does not match a newline) and stop
at the first point where `]]\s*=` follows; return the raw captured name
and the remainder after the `=`, or `none` when no extension matches at
this start position. -/
def lazyCapture (acc : List Char) : List Char → Option (List Char × List Char)
  | [] => none
  | c :: rest =>
    if c = '\n' then none
    else
      match defMarkerTail rest with
      | some after => some (acc ++ [c], after)
      | none => lazyCapture (acc ++ [c]) rest

/-- Scan for the first match of the definition regex: at each position try
`[[` followed by a lazy capture; on failure advance one character,
accumulating the skipped text (which becomes part of an inter-definition
content slice).  Returns `(textBeforeMatch, rawName, textAfterMatch)`. -/
def findDefMatch : List Char → Option (List Char × List Char × List Char)
  | [] => none
  | c :: rest =>
    match (if c = '[' ∧ rest.head? = some '[' then lazyCapture [] rest.tail else none) with
    | some (raw, after) => some ([], raw, after)
    | none =>
      match findDefMatch rest with
      | none => none
      | some (pre, raw, after) => some (c :: pre, raw, after)

theorem defMarkerTail_length {l r : List Char} (h : defMarkerTail l = some r) :
    r.length < l.length := by
  unfold defMarkerTail at h
  split at h
  · rename_i h2
    split at h
    · rename_i r' heq
      cases h
      have h3 : ((l.drop 2).dropWhile pySpace).length ≤ (l.drop 2).length :=
        (List.dropWhile_sublist _).length_le
      rw [heq] at h3
      have h4 : (l.drop 2).length = l.length - 2 := List.length_drop 2 l
      have h5 := congrArg List.length h2
      simp only [List.length_take, List.length_cons, List.length_nil] at h5 h3
      omega
    · exact absurd h (by simp)
  · exact absurd h (by simp)

theorem lazyCapture_length :
    ∀ (l acc cap after : List Char), lazyCapture acc l = some (cap, after) →
      after.length < l.length := by
  intro l
  induction l with
  | nil => intro acc cap after h; simp [lazyCapture] at h
  | cons c rest ih =>
    intro acc cap after h
    unfold lazyCapture at h
    by_cases hc : c = '\n'
    · simp [hc] at h
    · rw [if_neg hc] at h
      rcases hm : defMarkerTail rest with _ | r
      · rw [hm] at h
        have := ih (acc ++ [c]) cap after h
        simp only [List.length_cons]
        omega
      · rw [hm] at h
        simp only [Option.some.injEq, Prod.mk.injEq] at h
        obtain ⟨-, h2⟩ := h
        subst h2
        have := defMarkerTail_length hm
        simp only [List.length_cons]
        omega

theorem findDefMatch_length :
    ∀ (l pre raw after : List Char), findDefMatch l = some (pre, raw, after) →
      after.length < l.length := by
  intro l
  induction l with
  | nil => intro pre raw after h; simp [findDefMatch] at h
  | cons c rest ih =>
    intro pre raw after h
    unfold findDefMatch at h
    rcases hi : (if c = '[' ∧ rest.head? = some '[' then lazyCapture [] rest.tail else none) with
      _ | ⟨raw1, after1⟩
    · rw [hi] at h
      rcases hr : findDefMatch rest with _ | ⟨pre2, raw2, after2⟩
      · rw [hr] at h; simp at h
      · rw [hr] at h
        simp only [Option.some.injEq, Prod.mk.injEq] at h
        obtain ⟨-, -, h3⟩ := h
        subst h3
        have := ih pre2 raw2 after2 hr
        simp only [List.length_cons]
        omega
    · rw [hi] at h
      simp only [Option.some.injEq, Prod.mk.injEq] at h
      obtain ⟨-, -, h3⟩ := h
      subst h3
      by_cases hc : c = '[' ∧ rest.head? = some '['
      · rw [if_pos hc] at hi
        have hl := lazyCapture_length rest.tail [] raw1 after1 hi
        have ht : rest.tail.length ≤ rest.length := (List.tail_sublist rest).length_le
        simp only [List.length_cons]
        omega
      · rw [if_neg hc] at hi
        exact absurd hi (by simp)

/-- Successive definitions of a prompt file as
`(strippedName, strippedContent)` pairs in file order: the content of one
definition is the text between the end of its marker and the start of the
next marker, or the end of file for the last one, stripped (`utils.py`,
lines 34-46). -/
def parseDefsGo : Nat → List Char → List Char → List (String × String)
  | 0, raw, rest => [(String.mk (stripChars raw), String.mk (stripChars rest))]
  | fuel + 1, raw, rest =>
    match findDefMatch rest with
    | none => [(String.mk (stripChars raw), String.mk (stripChars rest))]
    | some (pre, raw2, rest2) =>
      (String.mk (stripChars raw), String.mk (stripChars pre)) ::
        parseDefsGo fuel raw2 rest2

/-- Embedding of `parse_prompt_file` (`utils.py`, lines 11-48): find all
definition markers, slice the contents between consecutive markers, strip
names and contents, and build the dictionary; a repeated name silently
overwrites the earlier entry, keeping its position, exactly as a Python
`dict` assignment does.  The fuel (one unit per definition marker) is an
artifact of the embedding: by `findDefMatch_length` every marker strictly
shortens the remaining text, so the text's length is always sufficient. -/
def parse_prompt_file (file_content : String) : List (String × String) :=
  match findDefMatch file_content.data with
  | none => []
  | some (_, raw, rest) =>
    (parseDefsGo rest.length raw rest).foldl (fun acc p => updateA acc p.1 p.2) []

/-- Python `str.replace(old, new)` on character lists for a non-empty
pattern: scan left to right, replace each non-overlapping occurrence of
`pat` by `rep` and resume after it, otherwise copy one character.  With
an empty pattern the scan copies the text unchanged; the engine only ever
replaces the non-empty pattern `[[dep]]`. -/
def replaceAux (pat rep : List Char) : Nat → List Char → List Char
  | 0, l => l
  | _, [] => []
  | fuel + 1, c :: rest =>
    if pat ≠ [] ∧ pat.isPrefixOf (c :: rest) then
      rep ++ replaceAux pat rep fuel ((c :: rest).drop pat.length)
    else c :: replaceAux pat rep fuel rest

/-- Python `str.replace` on strings (used as
`prompt.replace("[[dep]]", value)` in `prmptr.py`).  The fuel (one unit
per scan step, while every step strictly shortens the text) is an
artifact of the embedding; the text's length is always sufficient. -/
def replaceAll (s pat rep : String) : String :=
  String.mk (replaceAux pat.data rep.data s.data.length s.data)

/-- Split on non-overlapping occurrences of `pat`, with the same scan as
`replaceAux`: the list of the text segments between consecutive
occurrences (always non-empty; a specification device for the replacement
semantics). -/
def splitOnPat (pat : List Char) : Nat → List Char → List (List Char)
  | 0, l => [l]
  | _, [] => [[]]
  | fuel + 1, c :: rest =>
    if pat ≠ [] ∧ pat.isPrefixOf (c :: rest) then
      [] :: splitOnPat pat fuel ((c :: rest).drop pat.length)
    else
      match splitOnPat pat fuel rest with
      | [] => [[c]]
      | p :: ps => (c :: p) :: ps

/-- Join a list of segments with a separator (a specification device:
`joinWith sep (splitOnPat pat s)` recovers the replacement semantics). -/
def joinWith (sep : List Char) : List (List Char) → List Char
  | [] => []
  | [p] => p
  | p :: ps => p ++ sep ++ joinWith sep ps

/-- The log-entry separator used when joining the step log
(`prmptr.py`, lines 166 and 234). -/
def logSep : String := "\n\n====================\n\n"

/-- Log entry for a static fragment (`prmptr.py`, lines 100-103 and
207-210). -/
def staticLog (name result : String) : String :=
  "--- Step: [[" ++ name ++ "]] (Static) ---\n\n" ++
    "CONTENT USED DIRECTLY:\n---\n" ++ result ++ "\n---\n"

/-- Log entry for a dynamic fragment (`prmptr.py`, lines 119-123 and
227-231). -/
def dynamicLog (name prompt result : String) : String :=
  "--- Step: [[" ++ name ++ "]] ---\n\n" ++
    "PROMPT SENT TO LLM:\n---\n" ++ prompt ++ "\n---\n\n" ++
    "RESPONSE RECEIVED:\n---\n" ++ result ++ "\n---\n"

/-- The substitution loop of both engines (`prmptr.py`, lines 108-112 and
215-219): for each dependency in list order, look its value up in the
resolved-value map (aborting the run when absent) and replace every
occurrence of `[[dep]]` in the current prompt text by the value. -/
def substitute (resolved : List (String × String)) :
    List String → String → Option String
  | [], prompt => some prompt
  | dep :: rest, prompt =>
    match lookupA resolved dep with
    | none => none
    | some v => substitute resolved rest (replaceAll prompt ("[[" ++ dep ++ "]]") v)

/-- Embedding of `process_single_prompt` (`prmptr.py`, lines 89-124),
which is also, step for step, the loop body of the sequential engine
(`prmptr.py`, lines 195-231): look up the template (a missing definition
raises `KeyError` in Python, modelled as an aborted run), treat a
dependency-free node as static (its value is its raw template, no
generation call), otherwise substitute the dependencies and call the
generation operation `gen` (the `call_llm` wrapper, which returns `None`
on any API error).  Returns `(name, resolvedValue, logEntry)`. -/
def process_single_prompt (gen : String → Option String)
    (definitions : List (String × String)) (graph : Graph)
    (resolved_values : List (String × String)) (name : String) :
    Option (String × String × String) :=
  match lookupA definitions name with
  | none => none
  | some template =>
    match depsOf graph name with
    | [] => some (name, template, staticLog name template)
    | d :: ds =>
      match substitute resolved_values (d :: ds) template with
      | none => none
      | some prompt =>
        match gen prompt with
        | none => none
        | some result => some (name, result, dynamicLog name prompt result)

/-- The sequential loop of `execute_prompt_chain` (`prmptr.py`, lines
195-231): process the order one name at a time, recording each resolved
value and appending each log entry, aborting the whole run on the first
failure. -/
def execSeqGo (gen : String → Option String)
    (definitions : List (String × String)) (graph : Graph) :
    List String → List (String × String) → List String →
      Option (List (String × String) × List String)
  | [], resolved, logs => some (resolved, logs)
  | name :: rest, resolved, logs =>
    match process_single_prompt gen definitions graph resolved name with
    | none => none
    | some r =>
      execSeqGo gen definitions graph rest (updateA resolved r.1 r.2.1) (logs ++ [r.2.2])

/-- Embedding of `execute_prompt_chain` (`prmptr.py`, lines 171-236): seed
the resolved-value map with the reserved input entry, run the order, then
return the entry bound to `output` — or the literal placeholder string
when none exists — together with the joined log. -/
def execute_prompt_chain (gen : String → Option String) (order : List String)
    (definitions : List (String × String)) (graph : Graph)
    (initial_input : String) : Option (String × String) :=
  match execSeqGo gen definitions graph order [(INPUT_NODE_NAME, initial_input)] [] with
  | none => none
  | some (resolved, logs) =>
    some ((lookupA resolved "output").getD "Error: Final output not generated.",
      logSep.intercalate logs)

/-- Collect the results of one parallel group in worker-completion order
(the `concurrent.futures.as_completed` loop, `prmptr.py`, lines 150-155):
each worker reads the resolved-value map as it stood when the level was
dispatched; the first failed worker, in completion order, aborts the
run. -/
def collectGroup (gen : String → Option String)
    (definitions : List (String × String)) (graph : Graph)
    (resolved : List (String × String)) :
    List String → Option (List (String × String × String))
  | [] => some []
  | n :: ns =>
    match process_single_prompt gen definitions graph resolved n with
    | none => none
    | some r =>
      match collectGroup gen definitions graph resolved ns with
      | none => none
      | some rs => some (r :: rs)

/-- Index of the first occurrence of a name in a group (`group.index`
inside the sort key, `prmptr.py`, line 158); names absent from the group
get the group length, larger than any member's index (Python would raise
`ValueError` there, but the sorted results' names always belong to the
group). -/
def groupIndex (grp : List String) (n : String) : Nat :=
  match grp with
  | [] => 0
  | g :: gs => if g = n then 0 else groupIndex gs n + 1

/-- Stable insertion of one collected result into a list sorted by group
index: the new element goes after every element with a key less than or
equal to its own, which is exactly the relative-order guarantee of
Python's stable `list.sort`. -/
def insertByIdx (grp : List String) (r : String × String × String) :
    List (String × String × String) → List (String × String × String)
  | [] => [r]
  | x :: xs =>
    if groupIndex grp x.1 ≤ groupIndex grp r.1 then x :: insertByIdx grp r xs
    else r :: x :: xs

/-- The `group_results.sort(key=lambda x: group.index(x[0]))` step
(`prmptr.py`, line 158) as a stable sort by first index in the group. -/
def sortByGroup (grp : List String) (rs : List (String × String × String)) :
    List (String × String × String) :=
  rs.foldl (fun acc r => insertByIdx grp r acc) []

/-- One iteration of the level loop of `execute_prompt_chain_parallel`
(`prmptr.py`, lines 127-163).  A single-member level is processed
directly; a larger level is dispatched to workers, collected in the
completion order `comp` (a parameter modelling the nondeterministic
`as_completed` order; it only matters when it is a permutation of the
level), sorted back to declaration order, and only then written to the
resolved-value map and the log.  An empty level would make Python
construct a `ThreadPoolExecutor` with zero workers, which raises
`ValueError`; that crash is modelled as an aborted run. -/
def runGroup (gen : String → Option String)
    (definitions : List (String × String)) (graph : Graph)
    (grp comp : List String) (resolved : List (String × String))
    (logs : List String) : Option (List (String × String) × List String) :=
  match grp with
  | [] => none
  | [n] =>
    match process_single_prompt gen definitions graph resolved n with
    | none => none
    | some r => some (updateA resolved r.1 r.2.1, logs ++ [r.2.2])
  | _ :: _ :: _ =>
    match collectGroup gen definitions graph resolved comp with
    | none => none
    | some rs =>
      let sorted := sortByGroup grp rs
      some (sorted.foldl (fun acc r => updateA acc r.1 r.2.1) resolved,
        logs ++ sorted.map (fun r => r.2.2))

/-- The level loop of `execute_prompt_chain_parallel`: levels run
strictly in order, each against the map produced by its predecessors;
`scheds` supplies one completion order per level (positionally; a level
with no entry defaults to its own declaration order). -/
def runGroups (gen : String → Option String)
    (definitions : List (String × String)) (graph : Graph) :
    List (List String) → List (List String) → List (String × String) →
      List String → Option (List (String × String) × List String)
  | [], _, resolved, logs => some (resolved, logs)
  | grp :: rest, scheds, resolved, logs =>
    match runGroup gen definitions graph grp (scheds.headD grp) resolved logs with
    | none => none
    | some (resolved', logs') =>
      runGroups gen definitions graph rest scheds.tail resolved' logs'

/-- Embedding of `execute_prompt_chain_parallel` (`prmptr.py`, lines
57-168).  The worker-pool size (`max_workers`) does not influence any
observable value of the function and is omitted; the completion orders of
the levels are the explicit `scheds` parameter. -/
def execute_prompt_chain_parallel (gen : String → Option String)
    (parallel_groups : List (List String)) (scheds : List (List String))
    (definitions : List (String × String)) (graph : Graph)
    (initial_input : String) : Option (String × String) :=
  match runGroups gen definitions graph parallel_groups scheds
      [(INPUT_NODE_NAME, initial_input)] [] with
  | none => none
  | some (resolved, logs) =>
    some ((lookupA resolved "output").getD "Error: Final output not generated.",
      logSep.intercalate logs)

/-- The core pipeline of `main` (`prmptr.py`, lines 296-335) after file
I/O: parse the definitions, build the graph, resolve the execution order
(exiting before any generation call when it fails), then run the
sequential or the parallel engine.  `find_parallel_groups` returning
`none` corresponds to a `RecursionError` crash of the depth computation
(possible only when a cycle is unreachable from `output`), modelled as an
aborted run. -/
def runChain (gen : String → Option String) (par : Bool)
    (scheds : List (List String)) (definitions : List (String × String))
    (initial_input : String) : Option (String × String) :=
  match resolve_execution_order (build_dependency_graph definitions) with
  | .error _ => none
  | .ok order =>
    if par then
      match find_parallel_groups (build_dependency_graph definitions) with
      | none => none
      | some groups =>
        execute_prompt_chain_parallel gen groups scheds definitions
          (build_dependency_graph definitions) initial_input
    else
      execute_prompt_chain gen order definitions
        (build_dependency_graph definitions) initial_input

/-- C2: the Order Resolver fails with the missing-output condition
whenever `output` is not a key of the graph; the depth-first visit fails
with the cyclic-dependency condition naming the offending node whenever
it reaches a not-yet-finished node that is already on the active
recursion path; the spec's concrete cycle `a = [[b]]`, `b = [[a]]`,
`output = [[a]]` raises exactly `cyclicDependency "a"`; and in the main
pipeline a resolver error aborts the run before the engine starts, so no
generation call is attempted: the outcome is `none` and is independent of
the generation operation. -/
theorem claim_C2 :
    (∀ g : Graph, lookupA g "output" = none →
      resolve_execution_order g = .error .missingOutputNode)
    ∧ (∀ (g : Graph) (fuel : Nat) (node : String) (visiting : List String)
        (st : List String × List String), node ∉ st.2 → node ∈ visiting →
        visitNode g (fuel + 1) node visiting st = .error (.cyclicDependency node))
    ∧ resolve_execution_order [("a", ["b"]), ("b", ["a"]), ("output", ["a"])] =
        .error (.cyclicDependency "a")
    ∧ (∀ (gen gen' : String → Option String) (par : Bool) (scheds : List (List String))
        (defs : List (String × String)) (init : String) (e : ResolveError),
        resolve_execution_order (build_dependency_graph defs) = .error e →
        runChain gen par scheds defs init = none ∧
          runChain gen par scheds defs init = runChain gen' par scheds defs init) := by
  refine ⟨?_, ?_, ?_, ?_⟩
  · intro g h
    unfold resolve_execution_order
    rw [h]
    simp
  · intro g fuel node visiting st h1 h2
    unfold visitNode
    rw [if_neg h1, if_pos h2]
  · rfl
  · intro gen gen' par scheds defs init e h
    unfold runChain
    rw [h]
    exact ⟨rfl, rfl⟩

/-- Witness for C2 at concrete inputs. -/
theorem claim_C2_witness :
    resolve_execution_order [("a", ["x"])] = .error .missingOutputNode
    ∧ visitNode [] 1 "n" ["n"] ([], []) = .error (.cyclicDependency "n")
    ∧ runChain (fun _ => some "r") true [] [("a", "t")] "i" = none :=
  ⟨claim_C2.1 [("a", ["x"])] (by rfl),
   claim_C2.2.1 [] 0 "n" ["n"] ([], []) (by simp) (by simp),
   (claim_C2.2.2.2 (fun _ => some "r") (fun _ => none) true [] [("a", "t")] "i"
      .missingOutputNode (by rfl)).1⟩

/-- An order respects the graph when, scanning left to right with `seen`
accumulating the already-listed names, every dependency of each name that
is itself a graph key has already been listed (i.e. appears strictly
earlier). -/
def respectsFrom (g : Graph) : List String → List String → Prop
  | _, [] => True
  | seen, n :: rest =>
    (∀ d ∈ depsOf g n, isKey g d = true → d ∈ seen) ∧ respectsFrom g (n :: seen) rest

/-- Invariant of the depth-first traversal state: the accumulated order
respects the graph, contains only graph keys, and contains every visited
graph key. -/
def OrderInv (g : Graph) (order visited : List String) : Prop :=
  respectsFrom g [] order ∧ (∀ n ∈ order, isKey g n = true) ∧
    (∀ n ∈ visited, isKey g n = true → n ∈ order)

theorem respectsFrom_append_single (g : Graph) :
    ∀ (xs seen : List String) (n : String),
      respectsFrom g seen (xs ++ [n]) ↔
        (respectsFrom g seen xs ∧
          ∀ d ∈ depsOf g n, isKey g d = true → d ∈ seen ∨ d ∈ xs) := by
  intro xs
  induction xs with
  | nil =>
    intro seen n
    simp [respectsFrom]
  | cons x xs' ih =>
    intro seen n
    rw [List.cons_append]
    simp only [respectsFrom, List.append_eq]
    rw [ih (x :: seen) n]
    constructor
    · rintro ⟨h1, h2, h3⟩
      refine ⟨⟨h1, h2⟩, ?_⟩
      intro d hd hk
      rcases h3 d hd hk with hmem | hmem
      · rcases List.mem_cons.mp hmem with rfl | hs
        · exact Or.inr (List.mem_cons_self _ _)
        · exact Or.inl hs
      · exact Or.inr (List.mem_cons_of_mem _ hmem)
    · rintro ⟨⟨h1, h2⟩, h3⟩
      refine ⟨h1, h2, ?_⟩
      intro d hd hk
      rcases h3 d hd hk with hs | hmem
      · exact Or.inl (List.mem_cons_of_mem _ hs)
      · rcases List.mem_cons.mp hmem with rfl | hx
        · exact Or.inl (List.mem_cons_self _ _)
        · exact Or.inr hx

theorem visitListGo_sound (g : Graph)
    (visit1 : String → List String × List String →
      Except ResolveError (List String × List String))
    (H : ∀ d order visited order' visited',
      visit1 d (order, visited) = .ok (order', visited') → OrderInv g order visited →
      OrderInv g order' visited' ∧ (∀ x ∈ visited, x ∈ visited') ∧ d ∈ visited') :
    ∀ deps order visited order' visited',
      visitListGo visit1 deps (order, visited) = .ok (order', visited') →
      OrderInv g order visited →
      OrderInv g order' visited' ∧ (∀ x ∈ visited, x ∈ visited') ∧
        ∀ d ∈ deps, d ∈ visited' := by
  intro deps
  induction deps with
  | nil =>
    intro o v o' v' h hinv
    simp only [visitListGo, Except.ok.injEq, Prod.mk.injEq] at h
    obtain ⟨h1, h2⟩ := h
    subst h1
    subst h2
    exact ⟨hinv, fun x hx => hx, by simp⟩
  | cons d ds ihd =>
    intro o v o' v' h hinv
    rw [visitListGo] at h
    rcases h1 : visit1 d (o, v) with e | ⟨o1, v1⟩
    · rw [h1] at h
      simp at h
    · rw [h1] at h
      have hstep := H d o v o1 v1 h1 hinv
      have hrest := ihd o1 v1 o' v' h hstep.1
      refine ⟨hrest.1, fun x hx => hrest.2.1 x (hstep.2.1 x hx), ?_⟩
      intro dd hdd
      rcases List.mem_cons.mp hdd with rfl | hdd'
      · exact hrest.2.1 dd hstep.2.2
      · exact hrest.2.2 dd hdd'

theorem visitNode_sound (g : Graph) :
    ∀ fuel node visiting order visited order' visited',
      visitNode g fuel node visiting (order, visited) = .ok (order', visited') →
      OrderInv g order visited →
      OrderInv g order' visited' ∧ (∀ x ∈ visited, x ∈ visited') ∧ node ∈ visited' := by
  intro fuel
  induction fuel with
  | zero =>
    intro node visiting order visited order' visited' h _
    simp [visitNode] at h
  | succ f ih =>
    intro node visiting order visited order' visited' h hinv
    rw [visitNode] at h
    by_cases hv : node ∈ (order, visited).2
    · rw [if_pos hv] at h
      simp only [Except.ok.injEq, Prod.mk.injEq] at h
      obtain ⟨h1, h2⟩ := h
      subst h1
      subst h2
      exact ⟨hinv, fun x hx => hx, hv⟩
    · rw [if_neg hv] at h
      by_cases hvis : node ∈ visiting
      · rw [if_pos hvis] at h
        simp at h
      · rw [if_neg hvis] at h
        rcases hk : lookupA g node with _ | deps
        · rw [hk] at h
          simp only [Except.ok.injEq, Prod.mk.injEq] at h
          obtain ⟨h1, h2⟩ := h
          subst h1
          subst h2
          refine ⟨⟨hinv.1, hinv.2.1, ?_⟩, fun x hx => List.mem_cons_of_mem _ hx,
            List.mem_cons_self _ _⟩
          intro n hn hkey
          rcases List.mem_cons.mp hn with rfl | hn'
          · exact absurd hkey (by simp [isKey, hk])
          · exact hinv.2.2 n hn' hkey
        · rw [hk] at h
          dsimp only at h
          rcases hl : visitListGo (fun d st' => visitNode g f d (node :: visiting) st')
              deps (order, visited) with e | ⟨o1, v1⟩
          · rw [hl] at h
            simp at h
          · rw [hl] at h
            simp only [Except.ok.injEq, Prod.mk.injEq] at h
            obtain ⟨h1, h2⟩ := h
            subst h1
            subst h2
            have hsub := visitListGo_sound g _
              (fun d o v o' v' hstep hi => ih d (node :: visiting) o v o' v' hstep hi)
              deps order visited o1 v1 hl hinv
            obtain ⟨hinv1, hmono1, hdeps1⟩ := hsub
            have hkeydep : depsOf g node = deps := by simp [depsOf, hk]
            refine ⟨⟨?_, ?_, ?_⟩, ?_, List.mem_cons_self _ _⟩
            · rw [respectsFrom_append_single]
              refine ⟨hinv1.1, ?_⟩
              intro d hd hkey
              rw [hkeydep] at hd
              exact Or.inr (hinv1.2.2 d (hdeps1 d hd) hkey)
            · intro n hn
              rcases List.mem_append.mp hn with hn' | hn'
              · exact hinv1.2.1 n hn'
              · rcases List.mem_singleton.mp hn' with rfl
                simp [isKey, hk]
            · intro n hn hkey
              rcases List.mem_cons.mp hn with rfl | hn'
              · exact List.mem_append.mpr (Or.inr (List.mem_singleton.mpr rfl))
              · exact List.mem_append.mpr (Or.inl (hinv1.2.2 n hn' hkey))
            · intro x hx
              exact List.mem_cons_of_mem _ (hmono1 x hx)

/-- C1 (amended): whenever the Order Resolver succeeds, the returned
order contains only keys of the graph (hence names referenced but not
present as keys — external leaves — never appear), every dependency of
each listed name that is itself a graph key appears strictly earlier in
the order, and — provided the reserved initial-input name is not itself
a key of the graph, which the source only guarantees by convention — the
reserved name `input text` never appears in the order. -/
theorem claim_C1 (g : Graph) (order : List String)
    (h : resolve_execution_order g = .ok order) :
    (∀ n ∈ order, isKey g n = true) ∧ respectsFrom g [] order ∧
      (lookupA g INPUT_NODE_NAME = none → INPUT_NODE_NAME ∉ order) := by
  unfold resolve_execution_order at h
  by_cases hout : lookupA g "output" = none
  · rw [if_pos hout] at h
    simp at h
  · rw [if_neg hout] at h
    rcases hm : visitNode g (resolveFuel g) "output" [] ([], []) with e | st
    · rw [hm] at h
      simp at h
    · rw [hm] at h
      simp only [Except.ok.injEq] at h
      subst h
      have hinv0 : OrderInv g [] [] := ⟨trivial, by simp, by simp⟩
      have hs := visitNode_sound g (resolveFuel g) "output" [] [] [] st.1 st.2
        (by rw [← hm]) hinv0
      refine ⟨hs.1.2.1, hs.1.1, ?_⟩
      intro hni hmem
      have := hs.1.2.1 _ hmem
      simp [isKey, hni] at this

/-- Witness for C1 on the three-node chain. -/
theorem claim_C1_witness :
    resolve_execution_order [("a", []), ("b", ["a"]), ("output", ["b"])] =
        .ok ["a", "b", "output"]
    ∧ ((∀ n ∈ ["a", "b", "output"],
          isKey [("a", []), ("b", ["a"]), ("output", ["b"])] n = true)
        ∧ respectsFrom [("a", []), ("b", ["a"]), ("output", ["b"])] [] ["a", "b", "output"]
        ∧ (lookupA [("a", []), ("b", ["a"]), ("output", ["b"])] INPUT_NODE_NAME = none →
            INPUT_NODE_NAME ∉ ["a", "b", "output"])) :=
  ⟨rfl, claim_C1 [("a", []), ("b", ["a"]), ("output", ["b"])] ["a", "b", "output"] rfl⟩

/-- Counterexample to C1 as stated: when the reserved initial-input name
is itself defined as a fragment (the source never prevents this), it is a
graph key and the resolver does append it to the execution order. -/
theorem claim_C1_counterexample :
    resolve_execution_order [("output", ["input text"]), ("input text", [])] =
        .ok ["input text", "output"]
    ∧ INPUT_NODE_NAME ∈ ["input text", "output"] :=
  ⟨rfl, by simp [INPUT_NODE_NAME]⟩

theorem lookupA_append {α : Type} (m l : List (String × α)) (n : String) :
    lookupA (m ++ l) n = match lookupA m n with
      | some v => some v
      | none => lookupA l n := by
  induction m with
  | nil => simp [lookupA]
  | cons p rest ih =>
    obtain ⟨k, v⟩ := p
    by_cases hk : k = n
    · simp [lookupA, hk]
    · simp only [List.cons_append, lookupA, if_neg hk]
      exact ih

theorem lookupA_append_some {α : Type} {m : List (String × α)} {n : String} {v : α}
    (l : List (String × α)) (h : lookupA m n = some v) : lookupA (m ++ l) n = some v := by
  rw [lookupA_append, h]

theorem lookupA_append_none {α : Type} {m : List (String × α)} {n : String}
    (l : List (String × α)) (h : lookupA m n = none) : lookupA (m ++ l) n = lookupA l n := by
  rw [lookupA_append, h]

theorem lookupA_single {α : Type} (k : String) (w : α) (n : String) :
    lookupA [(k, w)] n = if k = n then some w else none := by
  simp [lookupA]

theorem lookupA_none_not_memKeys {α : Type} {m : List (String × α)} {n : String}
    (h : lookupA m n = none) : n ∉ m.map Prod.fst := by
  induction m with
  | nil => simp
  | cons p rest ih =>
    obtain ⟨k, v⟩ := p
    by_cases hk : k = n
    · simp [lookupA, hk] at h
    · simp only [lookupA, if_neg hk] at h
      simp only [List.map_cons, List.mem_cons]
      rintro (rfl | hmem)
      · exact hk rfl
      · exact ih h hmem

theorem lookupA_some_memKeys {α : Type} {m : List (String × α)} {n : String} {v : α}
    (h : lookupA m n = some v) : n ∈ m.map Prod.fst := by
  induction m with
  | nil => simp [lookupA] at h
  | cons p rest ih =>
    obtain ⟨k, w⟩ := p
    by_cases hk : k = n
    · simp [hk]
    · simp only [lookupA, if_neg hk] at h
      simp only [List.map_cons, List.mem_cons]
      exact Or.inr (ih h)

theorem lookupA_of_mem_nodupKeys {α : Type} {m : List (String × α)} {n : String} {v : α}
    (hnd : (m.map Prod.fst).Nodup) (hmem : (n, v) ∈ m) : lookupA m n = some v := by
  induction m with
  | nil => simp at hmem
  | cons p rest ih =>
    obtain ⟨k, w⟩ := p
    simp only [List.map_cons, List.nodup_cons] at hnd
    rcases List.mem_cons.mp hmem with heq | hmem'
    · injection heq with h1 h2
      subst h1
      subst h2
      simp [lookupA]
    · have hk : k ≠ n := by
        intro he
        subst he
        exact hnd.1 (List.mem_map.mpr ⟨_, hmem', rfl⟩)
      simp only [lookupA, if_neg hk]
      exact ih hnd.2 hmem'

theorem mem_of_lookupA_some {α : Type} {m : List (String × α)} {n : String} {v : α}
    (h : lookupA m n = some v) : (n, v) ∈ m := by
  induction m with
  | nil => simp [lookupA] at h
  | cons p rest ih =>
    obtain ⟨k, w⟩ := p
    by_cases hk : k = n
    · subst hk
      simp [lookupA] at h
      simp [h]
    · simp only [lookupA, if_neg hk] at h
      exact List.mem_cons_of_mem _ (ih h)

/-- Extension of one memo by another: every stored binding survives.  In
the append-only memo embedding this holds for every computation step. -/
def MemoExt {α : Type} (m m' : List (String × α)) : Prop :=
  ∀ n v, lookupA m n = some v → lookupA m' n = some v

/-- One memo entry is justified by the recurrence of `calculate_depth`:
the reserved input name and non-keys carry 0; a key with an empty
dependency list carries 0; a key with dependencies carries one plus the
maximum of values stored for all its dependencies. -/
def EntryOk (g : Graph) (memo : List (String × Nat)) (n : String) (dn : Nat) : Prop :=
  (n = INPUT_NODE_NAME ∧ dn = 0) ∨
  (lookupA g n = none ∧ dn = 0) ∨
  (n ≠ INPUT_NODE_NAME ∧ ∃ deps, lookupA g n = some deps ∧
    ((deps = [] ∧ dn = 0) ∨
      ∃ vals, List.Forall₂ (fun d v => lookupA memo d = some v) deps vals ∧
        dn = vals.foldr Nat.max 0 + 1))

/-- Every binding of the memo is justified by the depth recurrence. -/
def Consistent (g : Graph) (memo : List (String × Nat)) : Prop :=
  ∀ n dn, lookupA memo n = some dn → EntryOk g memo n dn

theorem EntryOk_mono {g : Graph} {memo memo' : List (String × Nat)} {n : String} {dn : Nat}
    (hext : MemoExt memo memo') (h : EntryOk g memo n dn) : EntryOk g memo' n dn := by
  rcases h with h | h | ⟨hne, deps, hdeps, h⟩
  · exact Or.inl h
  · exact Or.inr (Or.inl h)
  · refine Or.inr (Or.inr ⟨hne, deps, hdeps, ?_⟩)
    rcases h with h | ⟨vals, hvals, hsum⟩
    · exact Or.inl h
    · exact Or.inr ⟨vals, hvals.imp (fun a b hd => hext a b hd), hsum⟩

theorem Consistent_append {g : Graph} {memo : List (String × Nat)} {node : String} {v : Nat}
    (h : Consistent g memo) (hnew : EntryOk g (memo ++ [(node, v)]) node v) :
    Consistent g (memo ++ [(node, v)]) := by
  have hext : MemoExt memo (memo ++ [(node, v)]) := fun n w hw => lookupA_append_some _ hw
  intro n dn hn
  rw [lookupA_append] at hn
  rcases hm : lookupA memo n with _ | w
  · rw [hm] at hn
    rw [lookupA_single] at hn
    by_cases hk : node = n
    · subst hk
      simp at hn
      subst hn
      exact hnew
    · simp [hk] at hn
  · rw [hm] at hn
    simp only [Option.some.injEq] at hn
    subst hn
    exact EntryOk_mono hext (h n _ hm)

/-- Invariant of the (implicit) recursion stack of `calculate_depth`:
every active node is not yet memoised, is a key other than the reserved
input name with a non-empty dependency list, and consecutive stack
entries are linked by dependency edges (each entry is a dependency of the
one below it). -/
def GoodStack (g : Graph) (memo : List (String × Nat)) (active : List String) : Prop :=
  (∀ a ∈ active, lookupA memo a = none ∧ a ≠ INPUT_NODE_NAME ∧
    ∃ deps, lookupA g a = some deps ∧ deps ≠ []) ∧
  List.Chain' (fun x y => x ∈ depsOf g y) active

/-- The node currently being computed is a dependency of the top stack
entry (trivial for an empty stack). -/
def HeadDep (g : Graph) (active : List String) (node : String) : Prop :=
  match active with
  | [] => True
  | a :: _ => node ∈ depsOf g a

/-- Induction hypothesis: a re-entered active node never completes (the
recursion would chase the dependency cycle forever; with fuel it runs
out). -/
def DepthFailIH (g : Graph) (f : Nat) : Prop :=
  ∀ node memo active, GoodStack g memo active → HeadDep g active node →
    Consistent g memo → node ∈ active → calcDepth g f node memo = none

/-- Induction hypothesis: a successful depth computation of a non-active
node preserves consistency, only appends to the memo, stores the returned
depth for its node, never stores anything for an active node, and keeps
the memo keys duplicate-free. -/
def DepthOkIH (g : Graph) (f : Nat) : Prop :=
  ∀ node memo dn memo' active, GoodStack g memo active → HeadDep g active node →
    node ∉ active → Consistent g memo → calcDepth g f node memo = some (dn, memo') →
    Consistent g memo' ∧ MemoExt memo memo' ∧ lookupA memo' node = some dn ∧
      (∀ a ∈ active, lookupA memo' a = none) ∧
      ((memo.map Prod.fst).Nodup → (memo'.map Prod.fst).Nodup)

theorem maxListGo_fail (g : Graph) (f : Nat) (ihA : DepthFailIH g f) (ihB : DepthOkIH g f)
    (node : String) (active : List String) :
    ∀ (ds : List String) (memo : List (String × Nat)),
      GoodStack g memo (node :: active) → (∀ d ∈ ds, d ∈ depsOf g node) →
      Consistent g memo → (∃ d', d' ∈ ds ∧ d' ∈ node :: active) →
      maxListGo (calcDepth g f) ds memo = none := by
  intro ds
  induction ds with
  | nil =>
    intro memo _ _ _ hex
    obtain ⟨d', hd', _⟩ := hex
    simp at hd'
  | cons d ds' ihds =>
    intro memo hgs hdeps hcons hex
    have hhd : HeadDep g (node :: active) d := hdeps d (List.mem_cons_self _ _)
    by_cases hda : d ∈ node :: active
    · have hfail := ihA d memo (node :: active) hgs hhd hcons hda
      rw [maxListGo, hfail]
    · rcases hc : calcDepth g f d memo with _ | ⟨dd, memo1⟩
      · rw [maxListGo, hc]
      · have hok := ihB d memo dd memo1 (node :: active) hgs hhd hda hcons hc
        have hgs1 : GoodStack g memo1 (node :: active) := by
          refine ⟨?_, hgs.2⟩
          intro a ha
          exact ⟨hok.2.2.2.1 a ha, (hgs.1 a ha).2⟩
        obtain ⟨d', hd'mem, hd'act⟩ := hex
        have hd'tail : d' ∈ ds' := by
          rcases List.mem_cons.mp hd'mem with rfl | h'
          · exact absurd hd'act hda
          · exact h'
        have hrest := ihds memo1 hgs1 (fun x hx => hdeps x (List.mem_cons_of_mem _ hx))
          hok.1 ⟨d', hd'tail, hd'act⟩
        rw [maxListGo, hc]
        dsimp only
        rw [hrest]

theorem maxListGo_ok (g : Graph) (f : Nat) (ihA : DepthFailIH g f) (ihB : DepthOkIH g f)
    (node : String) (active : List String) :
    ∀ (ds : List String) (memo : List (String × Nat)) (mx : Nat)
      (memo' : List (String × Nat)),
      GoodStack g memo (node :: active) → (∀ d ∈ ds, d ∈ depsOf g node) →
      Consistent g memo → maxListGo (calcDepth g f) ds memo = some (mx, memo') →
      Consistent g memo' ∧ MemoExt memo memo' ∧
        (∀ a ∈ node :: active, lookupA memo' a = none) ∧
        ((memo.map Prod.fst).Nodup → (memo'.map Prod.fst).Nodup) ∧
        ∃ vals, List.Forall₂ (fun d v => lookupA memo' d = some v) ds vals ∧
          mx = vals.foldr Nat.max 0 := by
  intro ds
  induction ds with
  | nil =>
    intro memo mx memo' hgs _ hcons h
    simp only [maxListGo, Option.some.injEq, Prod.mk.injEq] at h
    obtain ⟨h1, h2⟩ := h
    subst h1
    subst h2
    exact ⟨hcons, fun n v hv => hv, fun a ha => (hgs.1 a ha).1, id,
      ⟨[], List.Forall₂.nil, rfl⟩⟩
  | cons d ds' ihds =>
    intro memo mx memo' hgs hdeps hcons h
    have hhd : HeadDep g (node :: active) d := hdeps d (List.mem_cons_self _ _)
    rw [maxListGo] at h
    rcases hc : calcDepth g f d memo with _ | ⟨dd, memo1⟩
    · rw [hc] at h
      simp at h
    · rw [hc] at h
      dsimp only at h
      by_cases hda : d ∈ node :: active
      · have hfail := ihA d memo (node :: active) hgs hhd hcons hda
        rw [hfail] at hc
        simp at hc
      · have hok := ihB d memo dd memo1 (node :: active) hgs hhd hda hcons hc
        obtain ⟨hcons1, hext1, hlk1, hact1, hnd1⟩ := hok
        have hgs1 : GoodStack g memo1 (node :: active) := by
          refine ⟨?_, hgs.2⟩
          intro a ha
          exact ⟨hact1 a ha, (hgs.1 a ha).2⟩
        rcases hm2 : maxListGo (calcDepth g f) ds' memo1 with _ | ⟨m2, memo2⟩
        · rw [hm2] at h
          simp at h
        · rw [hm2] at h
          simp only [Option.some.injEq, Prod.mk.injEq] at h
          obtain ⟨h1, h2⟩ := h
          have hrest := ihds memo1 m2 memo2 hgs1
            (fun x hx => hdeps x (List.mem_cons_of_mem _ hx)) hcons1 hm2
          subst h1
          subst h2
          obtain ⟨hcons2, hext2, hact2, hnd2, vals2, hvals2, hm2v⟩ := hrest
          refine ⟨hcons2, fun n v hv => hext2 n v (hext1 n v hv), hact2,
            fun hnd => hnd2 (hnd1 hnd), ⟨dd :: vals2, ?_, ?_⟩⟩
          · exact List.Forall₂.cons (hext2 d dd hlk1) hvals2
          · simp [List.foldr, hm2v]

theorem calcDepth_sound (g : Graph) : ∀ fuel, DepthFailIH g fuel ∧ DepthOkIH g fuel := by
  intro fuel
  induction fuel with
  | zero =>
    constructor
    · intro node memo active _ _ _ _
      rfl
    · intro node memo dn memo' active _ _ _ _ h
      simp [calcDepth] at h
  | succ f ih =>
    obtain ⟨ihA, ihB⟩ := ih
    constructor
    · intro node memo active hgs hhd hcons hmem
      obtain ⟨hlm, hni, deps0, hkey, hne0⟩ := hgs.1 node hmem
      rw [calcDepth, hlm]
      dsimp only
      have hcond : ¬(node = INPUT_NODE_NAME ∨ lookupA g node = none) := by
        push_neg
        exact ⟨hni, by simp [hkey]⟩
      rw [if_neg hcond]
      have hdeps : depsOf g node = deps0 := by simp [depsOf, hkey]
      rw [hdeps]
      rcases deps0 with _ | ⟨d, ds⟩
      · exact absurd rfl hne0
      · have hchain : List.Chain' (fun x y => x ∈ depsOf g y) (node :: active) := by
          rcases hact : active with _ | ⟨a0, rest⟩
          · rw [hact] at hmem
            simp at hmem
          · rw [List.chain'_cons]
            rw [hact] at hhd hgs
            exact ⟨hhd, hgs.2⟩
        have hgs1 : GoodStack g memo (node :: active) := by
          refine ⟨?_, hchain⟩
          intro a ha
          rcases List.mem_cons.mp ha with rfl | ha'
          · exact hgs.1 a hmem
          · exact hgs.1 a ha'
        have hex : ∃ d', d' ∈ (d :: ds) ∧ d' ∈ node :: active := by
          obtain ⟨pre, post, hsplit⟩ := List.append_of_mem hmem
          rcases pre with _ | ⟨p0, pre'⟩
          · simp only [List.nil_append] at hsplit
            rw [hsplit] at hhd
            have : node ∈ depsOf g node := hhd
            rw [hdeps] at this
            exact ⟨node, this, List.mem_cons_self _ _⟩
          · have hch := hgs.2
            rw [hsplit, List.chain'_append] at hch
            have hpre_ne : p0 :: pre' ≠ [] := by simp
            obtain ⟨p, hp⟩ : ∃ a, (p0 :: pre').getLast? = some a :=
              ⟨(p0 :: pre').getLast hpre_ne, List.getLast?_eq_getLast _ hpre_ne⟩
            have hrel := hch.2.2 p hp node (by simp)
            have hpdep : p ∈ depsOf g node := hrel
            rw [hdeps] at hpdep
            have hpact : p ∈ active := by
              rw [hsplit]
              exact List.mem_append.mpr (Or.inl (List.mem_of_mem_getLast? hp))
            exact ⟨p, hpdep, List.mem_cons_of_mem _ hpact⟩
        have hfail := maxListGo_fail g f ihA ihB node active (d :: ds) memo hgs1
          (fun x hx => by rw [hdeps]; exact hx) hcons hex
        dsimp only
        rw [hfail]
    · intro node memo dn memo' active hgs hhd hna hcons h
      rw [calcDepth] at h
      rcases hlm : lookupA memo node with _ | d0
      · rw [hlm] at h
        dsimp only at h
        by_cases hcond : node = INPUT_NODE_NAME ∨ lookupA g node = none
        · rw [if_pos hcond] at h
          simp only [Option.some.injEq, Prod.mk.injEq] at h
          obtain ⟨h1, h2⟩ := h
          subst h1
          subst h2
          have hext : MemoExt memo (memo ++ [(node, 0)]) :=
            fun n v hv => lookupA_append_some _ hv
          refine ⟨?_, hext, ?_, ?_, ?_⟩
          · refine Consistent_append hcons ?_
            rcases hcond with hin | hnk
            · exact Or.inl ⟨hin, rfl⟩
            · exact Or.inr (Or.inl ⟨hnk, rfl⟩)
          · rw [lookupA_append_none _ hlm, lookupA_single, if_pos rfl]
          · intro a ha
            have hana : a ≠ node := fun he => hna (he ▸ ha)
            rw [lookupA_append_none _ ((hgs.1 a ha).1), lookupA_single,
              if_neg (fun he => hana he.symm)]
          · intro hnd
            rw [List.map_append]
            simp only [List.map_cons, List.map_nil]
            rw [List.nodup_append]
            exact ⟨hnd, List.nodup_singleton _,
              fun x hx => by simp; rintro rfl; exact lookupA_none_not_memKeys hlm hx⟩
        · rw [if_neg hcond] at h
          push_neg at hcond
          obtain ⟨hni, hkeyne⟩ := hcond
          rcases hkey : lookupA g node with _ | deps0
          · exact absurd hkey hkeyne
          · have hdeps : depsOf g node = deps0 := by simp [depsOf, hkey]
            rw [hdeps] at h
            rcases deps0 with _ | ⟨d, ds⟩
            · dsimp only at h
              simp only [Option.some.injEq, Prod.mk.injEq] at h
              obtain ⟨h1, h2⟩ := h
              subst h1
              subst h2
              have hext : MemoExt memo (memo ++ [(node, 0)]) :=
                fun n v hv => lookupA_append_some _ hv
              refine ⟨?_, hext, ?_, ?_, ?_⟩
              · refine Consistent_append hcons ?_
                exact Or.inr (Or.inr ⟨hni, [], hkey, Or.inl ⟨rfl, rfl⟩⟩)
              · rw [lookupA_append_none _ hlm, lookupA_single, if_pos rfl]
              · intro a ha
                have hana : a ≠ node := fun he => hna (he ▸ ha)
                rw [lookupA_append_none _ ((hgs.1 a ha).1), lookupA_single,
                  if_neg (fun he => hana he.symm)]
              · intro hnd
                rw [List.map_append]
                simp only [List.map_cons, List.map_nil]
                rw [List.nodup_append]
                exact ⟨hnd, List.nodup_singleton _,
                  fun x hx => by simp; rintro rfl; exact lookupA_none_not_memKeys hlm hx⟩
            · dsimp only at h
              rcases hmx : maxListGo (calcDepth g f) (d :: ds) memo with _ | ⟨m, memo1⟩
              · rw [hmx] at h
                simp at h
              · rw [hmx] at h
                simp only [Option.some.injEq, Prod.mk.injEq] at h
                obtain ⟨h1, h2⟩ := h
                have hchain : List.Chain' (fun x y => x ∈ depsOf g y) (node :: active) := by
                  rcases hact : active with _ | ⟨a0, rest⟩
                  · simp
                  · rw [List.chain'_cons]
                    rw [hact] at hhd hgs
                    exact ⟨hhd, hgs.2⟩
                have hgs1 : GoodStack g memo (node :: active) := by
                  refine ⟨?_, hchain⟩
                  intro a ha
                  rcases List.mem_cons.mp ha with rfl | ha'
                  · exact ⟨hlm, hni, d :: ds, hkey, by simp⟩
                  · exact hgs.1 a ha'
                have hok := maxListGo_ok g f ihA ihB node active (d :: ds) memo m memo1
                  hgs1 (fun x hx => by rw [hdeps]; exact hx) hcons hmx
                obtain ⟨hcons1, hext1, hact1, hnd1, vals, hvals, hmval⟩ := hok
                subst h1
                subst h2
                have hlm1 : lookupA memo1 node = none := hact1 node (List.mem_cons_self _ _)
                have hext : MemoExt memo (memo1 ++ [(node, m + 1)]) :=
                  fun n v hv => lookupA_append_some _ (hext1 n v hv)
                refine ⟨?_, hext, ?_, ?_, ?_⟩
                · refine Consistent_append hcons1 ?_
                  refine Or.inr (Or.inr ⟨hni, d :: ds, hkey, Or.inr ⟨vals, ?_, by rw [hmval]⟩⟩)
                  exact hvals.imp (fun a b hb => lookupA_append_some _ hb)
                · rw [lookupA_append_none _ hlm1, lookupA_single, if_pos rfl]
                · intro a ha
                  have hana : a ≠ node := fun he => hna (he ▸ ha)
                  rw [lookupA_append_none _ (hact1 a (List.mem_cons_of_mem _ ha)),
                    lookupA_single, if_neg (fun he => hana he.symm)]
                · intro hnd
                  rw [List.map_append]
                  simp only [List.map_cons, List.map_nil]
                  rw [List.nodup_append]
                  exact ⟨hnd1 hnd, List.nodup_singleton _,
                    fun x hx => by simp; rintro rfl; exact lookupA_none_not_memKeys hlm1 hx⟩
      · rw [hlm] at h
        dsimp only at h
        simp only [Option.some.injEq, Prod.mk.injEq] at h
        obtain ⟨h1, h2⟩ := h
        subst h1
        subst h2
        exact ⟨hcons, fun n v hv => hv, hlm, fun a ha => (hgs.1 a ha).1, id⟩

theorem computeDepthsGo_sound (g : Graph) (fuel : Nat) :
    ∀ (ns : List String) (memo memo' : List (String × Nat)),
      Consistent g memo → (memo.map Prod.fst).Nodup →
      computeDepthsGo g fuel ns memo = some memo' →
      Consistent g memo' ∧ MemoExt memo memo' ∧ (memo'.map Prod.fst).Nodup ∧
        ∀ n ∈ ns, ∃ v, lookupA memo' n = some v := by
  intro ns
  induction ns with
  | nil =>
    intro memo memo' hcons hnd h
    simp only [computeDepthsGo, Option.some.injEq] at h
    subst h
    exact ⟨hcons, fun n v hv => hv, hnd, by simp⟩
  | cons n ns' ih =>
    intro memo memo' hcons hnd h
    rw [computeDepthsGo] at h
    rcases hc : calcDepth g fuel n memo with _ | ⟨d, memo1⟩
    · rw [hc] at h
      simp at h
    · rw [hc] at h
      dsimp only at h
      by_cases hna : n ∈ ([] : List String)
      · simp at hna
      · have hok := (calcDepth_sound g fuel).2 n memo d memo1 []
          ⟨by simp, List.chain'_nil⟩ trivial hna hcons hc
        obtain ⟨hcons1, hext1, hlk1, _, hnd1⟩ := hok
        have hrest := ih memo1 memo' hcons1 (hnd1 hnd) h
        obtain ⟨hcons', hext', hnd', hcov⟩ := hrest
        refine ⟨hcons', fun m v hv => hext' m v (hext1 m v hv), hnd', ?_⟩
        intro x hx
        rcases List.mem_cons.mp hx with rfl | hx'
        · exact ⟨d, hext' x d hlk1⟩
        · exact hcov x hx'

theorem computeDepths_facts (g : Graph) (memo : List (String × Nat))
    (h : computeDepths g = some memo) :
    Consistent g memo ∧ (memo.map Prod.fst).Nodup ∧
      (∀ n, isKey g n = true → ∃ v, lookupA memo n = some v) ∧
      (∀ n, depthv g n = lookupA memo n) := by
  unfold computeDepths at h
  have hs := computeDepthsGo_sound g (depthFuel g) (g.map Prod.fst) [] memo
    (by intro n dn hdn; simp [lookupA] at hdn) (by simp) h
  obtain ⟨hcons, _, hnd, hcov⟩ := hs
  refine ⟨hcons, hnd, ?_, ?_⟩
  · intro n hk
    have : ∃ v, lookupA g n = some v := by
      unfold isKey at hk
      rcases hg : lookupA g n with _ | v
      · rw [hg] at hk
        simp at hk
      · exact ⟨v, rfl⟩
    obtain ⟨v, hv⟩ := this
    exact hcov n (lookupA_some_memKeys hv)
  · intro n
    unfold depthv computeDepths
    rw [h]
    rfl

/-- C5 (amended): on every graph on which the depth computation of the
Depth Grouper terminates, the memoised depth table satisfies the
recurrence the code implements: the reserved input name and names that
are not graph keys get depth 0, a key with an empty dependency list gets
depth 0, and a key with a non-empty dependency list gets one plus the
maximum of the stored depths of all its dependencies (so a fragment whose
dependencies are all external leaves gets depth 1, not 0); moreover every
key of the graph receives a depth, and the table's keys are
duplicate-free. -/
theorem claim_C5 (g : Graph) (memo : List (String × Nat))
    (h : computeDepths g = some memo) :
    Consistent g memo ∧ (memo.map Prod.fst).Nodup ∧
      (∀ n, isKey g n = true → ∃ v, lookupA memo n = some v) ∧
      (∀ n, depthv g n = lookupA memo n) :=
  computeDepths_facts g memo h

/-- Witness for C5 on the three-node chain, whose depth table is
`a ↦ 0`, `b ↦ 1`, `output ↦ 2`. -/
theorem claim_C5_witness :
    Consistent [("a", []), ("b", ["a"]), ("output", ["b"])]
        [("a", 0), ("b", 1), ("output", 2)]
    ∧ ([("a", 0), ("b", 1), ("output", 2)].map
        (Prod.fst (α := String) (β := Nat))).Nodup
    ∧ (∀ n, isKey [("a", []), ("b", ["a"]), ("output", ["b"])] n = true →
        ∃ v, lookupA [("a", 0), ("b", 1), ("output", 2)] n = some v)
    ∧ (∀ n, depthv [("a", []), ("b", ["a"]), ("output", ["b"])] n =
        lookupA [("a", 0), ("b", 1), ("output", 2)] n) :=
  claim_C5 [("a", []), ("b", ["a"]), ("output", ["b"])]
    [("a", 0), ("b", 1), ("output", 2)] rfl

/-- Counterexample to C5 as stated: the fragment `a` depends only on the
external leaf `input text`, so the claim's formula gives it depth 0, but
the code computes `1 + max(0) = 1`. -/
theorem claim_C5_counterexample :
    depthv [("a", ["input text"]), ("output", ["a"])] "a" = some 1 ∧
      depthv [("a", ["input text"]), ("output", ["a"])] "a" ≠ some 0 :=
  ⟨rfl, fun hc => by
    rw [show depthv [("a", ["input text"]), ("output", ["a"])] "a" = some 1 from rfl] at hc
    simp at hc⟩

theorem insertDepthKey_mem (x d : Nat) :
    ∀ l : List Nat, x ∈ insertDepthKey d l ↔ x = d ∨ x ∈ l := by
  intro l
  induction l with
  | nil => simp [insertDepthKey]
  | cons y ys ih =>
    unfold insertDepthKey
    by_cases h1 : d < y
    · simp [h1]
    · rw [if_neg h1]
      by_cases h2 : d = y
      · subst h2
        simp only [if_pos rfl]
        constructor
        · intro h
          exact Or.inr h
        · rintro (rfl | h)
          · exact List.mem_cons_self _ _
          · exact h
      · rw [if_neg h2]
        simp only [List.mem_cons, ih]
        tauto

theorem insertDepthKey_pairwise (d : Nat) :
    ∀ l : List Nat, l.Pairwise (· < ·) → (insertDepthKey d l).Pairwise (· < ·) := by
  intro l
  induction l with
  | nil =>
    intro _
    simp [insertDepthKey]
  | cons y ys ih =>
    intro hp
    rw [List.pairwise_cons] at hp
    unfold insertDepthKey
    by_cases h1 : d < y
    · rw [if_pos h1]
      rw [List.pairwise_cons]
      refine ⟨?_, List.pairwise_cons.mpr hp⟩
      intro z hz
      rcases List.mem_cons.mp hz with rfl | hz'
      · exact h1
      · exact Nat.lt_trans h1 (hp.1 z hz')
    · rw [if_neg h1]
      by_cases h2 : d = y
      · rw [if_pos h2]
        exact List.pairwise_cons.mpr hp
      · rw [if_neg h2]
        rw [List.pairwise_cons]
        refine ⟨?_, ih hp.2⟩
        intro z hz
        rcases (insertDepthKey_mem z d ys).mp hz with rfl | hz'
        · omega
        · exact hp.1 z hz'

theorem sortedDepthKeys_facts (ds : List Nat) :
    (sortedDepthKeys ds).Pairwise (· < ·) ∧
      ∀ x, x ∈ sortedDepthKeys ds ↔ x ∈ ds := by
  unfold sortedDepthKeys
  suffices h : ∀ (l acc : List Nat), acc.Pairwise (· < ·) →
      (l.foldl (fun acc d => insertDepthKey d acc) acc).Pairwise (· < ·) ∧
        ∀ x, x ∈ l.foldl (fun acc d => insertDepthKey d acc) acc ↔ x ∈ acc ∨ x ∈ l by
    have h2 := h ds [] List.Pairwise.nil
    refine ⟨h2.1, fun x => ?_⟩
    rw [h2.2 x]
    simp
  intro l
  induction l with
  | nil =>
    intro acc hacc
    simp [hacc]
  | cons d l' ih =>
    intro acc hacc
    simp only [List.foldl_cons]
    have hstep := ih (insertDepthKey d acc) (insertDepthKey_pairwise d acc hacc)
    refine ⟨hstep.1, fun x => ?_⟩
    rw [hstep.2 x, insertDepthKey_mem]
    simp only [List.mem_cons]
    tauto

theorem forall₂_mem_left {α β : Type} {R : α → β → Prop} :
    ∀ {l1 : List α} {l2 : List β} {a : α},
      List.Forall₂ R l1 l2 → a ∈ l1 → ∃ b, b ∈ l2 ∧ R a b := by
  intro l1
  induction l1 with
  | nil =>
    intro l2 a _ ha
    simp at ha
  | cons x xs ih =>
    intro l2 a h ha
    cases h with
    | cons hx hxs =>
      rcases List.mem_cons.mp ha with rfl | ha'
      · exact ⟨_, List.mem_cons_self _ _, hx⟩
      · obtain ⟨b, hb, hrb⟩ := ih hxs ha'
        exact ⟨b, List.mem_cons_of_mem _ hb, hrb⟩

theorem le_foldr_max : ∀ (l : List Nat) (b : Nat), b ∈ l → b ≤ l.foldr Nat.max 0 := by
  intro l
  induction l with
  | nil =>
    intro b hb
    simp at hb
  | cons x xs ih =>
    intro b hb
    rcases List.mem_cons.mp hb with rfl | hb'
    · simp only [List.foldr]
      exact Nat.le_max_left _ _
    · have := ih b hb'
      simp only [List.foldr]
      exact Nat.le_trans this (Nat.le_max_right _ _)

/-- Direct or transitive dependency between fragments: a chain of edges
from a name to one of its dependency-list entries. -/
def DependsOn (g : Graph) : String → String → Prop :=
  Relation.TransGen (fun x y => isKey g x = true ∧ y ∈ depsOf g x)

theorem edge_lt_of_consistent {g : Graph} {memo : List (String × Nat)}
    (hcons : Consistent g memo) (hni : lookupA g INPUT_NODE_NAME = none)
    {a b : String} {va : Nat} (hkey : isKey g a = true) (hdep : b ∈ depsOf g a)
    (hva : lookupA memo a = some va) :
    ∃ vb, lookupA memo b = some vb ∧ vb < va := by
  have hane : a ≠ INPUT_NODE_NAME := by
    rintro rfl
    simp [isKey, hni] at hkey
  have hok := hcons a va hva
  rcases hok with ⟨hin, _⟩ | ⟨hnk, _⟩ | ⟨-, deps, hdeps, hrest⟩
  · exact absurd hin hane
  · simp [isKey, hnk] at hkey
  · have hdd : depsOf g a = deps := by simp [depsOf, hdeps]
    rw [hdd] at hdep
    rcases hrest with ⟨hempty, _⟩ | ⟨vals, hvals, hsum⟩
    · rw [hempty] at hdep
      simp at hdep
    · obtain ⟨vb, hvb, hrvb⟩ := forall₂_mem_left hvals hdep
      refine ⟨vb, hrvb, ?_⟩
      have := le_foldr_max vals vb hvb
      omega

theorem dependsOn_lt_of_consistent {g : Graph} {memo : List (String × Nat)}
    (hcons : Consistent g memo) (hni : lookupA g INPUT_NODE_NAME = none)
    {a b : String} (hdep : DependsOn g a b) :
    ∀ va, lookupA memo a = some va → ∃ vb, lookupA memo b = some vb ∧ vb < va := by
  induction hdep with
  | single hr =>
    intro va hva
    exact edge_lt_of_consistent hcons hni hr.1 hr.2 hva
  | tail hab hr ih =>
    intro va hva
    obtain ⟨vb, hvb, hlt⟩ := ih va hva
    obtain ⟨vc, hvc, hlt2⟩ := edge_lt_of_consistent hcons hni hr.1 hr.2 hvb
    exact ⟨vc, hvc, Nat.lt_trans hlt2 hlt⟩

/-- The sorted list of distinct depth values of the grouped nodes (a name
for the `sorted(depth_groups.keys())` value inside
`find_parallel_groups`). -/
def depthKeysOf (g : Graph) (memo : List (String × Nat)) : List Nat :=
  sortedDepthKeys ((filteredNodes g memo).map Prod.snd)

/-- The level list produced by `find_parallel_groups` from a computed
memo. -/
def levelsOf (g : Graph) (memo : List (String × Nat)) : List (List String) :=
  (depthKeysOf g memo).map
    (fun d => ((filteredNodes g memo).filter fun p => p.2 = d).map Prod.fst)

theorem find_parallel_groups_eq (g : Graph) (memo : List (String × Nat))
    (hout : ¬ lookupA g "output" = none) (hcd : computeDepths g = some memo) :
    find_parallel_groups g = some (levelsOf g memo) := by
  unfold find_parallel_groups levelsOf depthKeysOf
  rw [if_neg hout, hcd]

theorem levelsOf_getElem (g : Graph) (memo : List (String × Nat)) (i : Nat)
    (hi : i < (levelsOf g memo).length) (hi' : i < (depthKeysOf g memo).length) :
    (levelsOf g memo)[i] =
      ((filteredNodes g memo).filter
        fun p => p.2 = (depthKeysOf g memo).get ⟨i, hi'⟩).map Prod.fst := by
  unfold levelsOf
  rw [List.getElem_map]
  rfl

/-- C3 (amended): for every graph on which the Depth Grouper terminates
and in which the reserved initial-input name is not itself a graph key
(the source guarantees this only by convention), the returned levels are
ordered by strictly increasing depth, every graph-key dependency of a
fragment placed in a level lies in some strictly earlier level, and no
two fragments of one level depend on each other directly or
transitively. -/
theorem claim_C3 (g : Graph) (levels : List (List String))
    (hfp : find_parallel_groups g = some levels)
    (hni : lookupA g INPUT_NODE_NAME = none) :
    (∀ (i j : Nat) (hi : i < levels.length) (hj : j < levels.length), i < j →
      ∀ a ∈ levels[i], ∀ b ∈ levels[j],
        ∃ da db, depthv g a = some da ∧ depthv g b = some db ∧ da < db)
    ∧ (∀ (j : Nat) (hj : j < levels.length), ∀ n ∈ levels[j], ∀ d ∈ depsOf g n,
        isKey g d = true → ∃ (i : Nat) (hi : i < levels.length), i < j ∧ d ∈ levels[i])
    ∧ (∀ lv ∈ levels, ∀ a ∈ lv, ∀ b ∈ lv, ¬ DependsOn g a b) := by
  by_cases hout : lookupA g "output" = none
  · unfold find_parallel_groups at hfp
    rw [if_pos hout] at hfp
    injection hfp with hfp
    subst hfp
    refine ⟨?_, ?_, ?_⟩
    · intro i j hi
      simp at hi
    · intro j hj
      simp at hj
    · intro lv hlv
      simp at hlv
  · rcases hcd : computeDepths g with _ | memo
    · unfold find_parallel_groups at hfp
      rw [if_neg hout, hcd] at hfp
      simp at hfp
    · have hfp2 := find_parallel_groups_eq g memo hout hcd
      rw [hfp] at hfp2
      have hlev : levels = levelsOf g memo := by
        have h2 := hfp2
        simp only [Option.some.injEq] at h2
        exact h2
      subst hlev
      obtain ⟨hcons, hnd, hcov, hdv⟩ := computeDepths_facts g memo hcd
      have hdkp : (depthKeysOf g memo).Pairwise (· < ·) := by
        unfold depthKeysOf
        exact (sortedDepthKeys_facts _).1
      have hmemval : ∀ (v : Nat) (x : String),
          x ∈ ((filteredNodes g memo).filter fun p => p.2 = v).map Prod.fst →
          lookupA memo x = some v ∧ x ≠ INPUT_NODE_NAME ∧ isKey g x = true := by
        intro v x hx
        rw [List.mem_map] at hx
        obtain ⟨p, hp, hpx⟩ := hx
        rw [List.mem_filter] at hp
        obtain ⟨hpf, hpv⟩ := hp
        have hpv' : p.2 = v := by simpa using hpv
        unfold filteredNodes at hpf
        rw [List.mem_filter] at hpf
        obtain ⟨hpm, hpq⟩ := hpf
        have hq : p.1 ≠ INPUT_NODE_NAME ∧ isKey g p.1 = true := by simpa using hpq
        have hpair : (x, v) ∈ memo := by
          have : p = (x, v) := by
            rw [← hpx, ← hpv']
          rw [← this]
          exact hpm
        exact ⟨lookupA_of_mem_nodupKeys hnd hpair, hpx ▸ hq.1, hpx ▸ hq.2⟩
      have hfindlevel : ∀ (x : String) (v : Nat), lookupA memo x = some v →
          x ≠ INPUT_NODE_NAME → isKey g x = true →
          ∃ (k : Nat) (hk : k < (depthKeysOf g memo).length),
            (depthKeysOf g memo)[k] = v ∧
            x ∈ ((filteredNodes g memo).filter
              fun p => p.2 = (depthKeysOf g memo)[k]).map Prod.fst := by
        intro x v hlk hxne hxkey
        have hxm : (x, v) ∈ memo := mem_of_lookupA_some hlk
        have hxf : (x, v) ∈ filteredNodes g memo := by
          unfold filteredNodes
          rw [List.mem_filter]
          exact ⟨hxm, by simp [hxne, hxkey]⟩
        have hvm : v ∈ (filteredNodes g memo).map Prod.snd :=
          List.mem_map.mpr ⟨(x, v), hxf, rfl⟩
        have hvdk : v ∈ depthKeysOf g memo := by
          unfold depthKeysOf
          exact ((sortedDepthKeys_facts _).2 v).mpr hvm
        obtain ⟨k, hk, hdkk⟩ := List.mem_iff_getElem.mp hvdk
        refine ⟨k, hk, hdkk, ?_⟩
        rw [List.mem_map]
        refine ⟨(x, v), ?_, rfl⟩
        rw [List.mem_filter]
        exact ⟨hxf, by simp [hdkk]⟩
      refine ⟨?_, ?_, ?_⟩
      · intro i j hi hj hij a ha b hb
        have hi' : i < (depthKeysOf g memo).length := by
          have h0 := hi
          unfold levelsOf at h0
          simpa using h0
        have hj' : j < (depthKeysOf g memo).length := by
          have h0 := hj
          unfold levelsOf at h0
          simpa using h0
        rw [levelsOf_getElem g memo i hi hi'] at ha
        rw [levelsOf_getElem g memo j hj hj'] at hb
        have h1 := hmemval _ a ha
        have h2 := hmemval _ b hb
        refine ⟨(depthKeysOf g memo).get ⟨i, hi'⟩, (depthKeysOf g memo).get ⟨j, hj'⟩,
          ?_, ?_, ?_⟩
        · rw [hdv a, h1.1]
        · rw [hdv b, h2.1]
        · exact List.pairwise_iff_getElem.mp hdkp i j hi' hj' hij
      · intro j hj n hn d hd hdkey
        have hj' : j < (depthKeysOf g memo).length := by
          have h0 := hj
          unfold levelsOf at h0
          simpa using h0
        rw [levelsOf_getElem g memo j hj hj'] at hn
        obtain ⟨hlkn, hnne, hnkey⟩ := hmemval _ n hn
        obtain ⟨vd, hlkd, hvdlt⟩ := edge_lt_of_consistent hcons hni hnkey hd hlkn
        have hdne : d ≠ INPUT_NODE_NAME := by
          rintro rfl
          simp [isKey, hni] at hdkey
        obtain ⟨k, hk, hdkk, hdin⟩ := hfindlevel d vd hlkd hdne hdkey
        have hklt : k < j := by
          rcases Nat.lt_trichotomy k j with h | h | h
          · exact h
          · exfalso
            subst h
            have he : (depthKeysOf g memo)[k] = (depthKeysOf g memo).get ⟨k, hj'⟩ := rfl
            omega
          · exfalso
            have hjk := List.pairwise_iff_getElem.mp hdkp j k hj' hk h
            have he : (depthKeysOf g memo)[j] = (depthKeysOf g memo).get ⟨j, hj'⟩ := rfl
            omega
        have hklen : k < (levelsOf g memo).length := by
          unfold levelsOf
          simpa using hk
        refine ⟨k, hklen, hklt, ?_⟩
        rw [levelsOf_getElem g memo k hklen hk]
        exact hdin
      · intro lv hlv a ha b hb hdep
        unfold levelsOf at hlv
        rw [List.mem_map] at hlv
        obtain ⟨v, hvdk, hlvF⟩ := hlv
        rw [← hlvF] at ha hb
        have h1 := hmemval v a ha
        have h2 := hmemval v b hb
        obtain ⟨vb, hvb, hvblt⟩ :=
          dependsOn_lt_of_consistent hcons hni hdep v h1.1
        rw [h2.1] at hvb
        simp only [Option.some.injEq] at hvb
        omega

/-- Witness for C3 on the three-node chain. -/
theorem claim_C3_witness :
    find_parallel_groups [("a", []), ("b", ["a"]), ("output", ["b"])] =
        some [["a"], ["b"], ["output"]]
    ∧ lookupA [("a", []), ("b", ["a"]), ("output", ["b"])] INPUT_NODE_NAME = none
    ∧ ¬ DependsOn [("a", []), ("b", ["a"]), ("output", ["b"])] "a" "a" :=
  ⟨rfl, rfl,
    (claim_C3 [("a", []), ("b", ["a"]), ("output", ["b"])] [["a"], ["b"], ["output"]]
        rfl rfl).2.2 ["a"] (by simp) "a" (by simp) "a" (by simp)⟩

/-- Counterexample to C3 as stated: when the reserved initial-input name
is itself defined as a fragment it is filtered out of every level, so the
key dependency `input text` of `output` lies in no level at all, although
it is a graph key. -/
theorem claim_C3_counterexample :
    ¬ (∀ (levels : List (List String)),
      find_parallel_groups [("input text", []), ("output", ["input text"])] = some levels →
      ∀ (j : Nat) (hj : j < levels.length), ∀ n ∈ levels[j],
        ∀ d ∈ depsOf [("input text", []), ("output", ["input text"])] n,
          isKey [("input text", []), ("output", ["input text"])] d = true →
          ∃ (i : Nat) (hi : i < levels.length), i < j ∧ d ∈ levels[i]) := by
  intro h
  have h2 := h [["output"]] rfl 0 (by decide) "output" (by simp) "input text"
    (by simp [depsOf, lookupA]) rfl
  obtain ⟨i, hi, hij, _⟩ := h2
  omega

theorem splitOnPat_ne_nil (pat : List Char) :
    ∀ (fuel : Nat) (l : List Char), splitOnPat pat fuel l ≠ [] := by
  intro fuel
  induction fuel with
  | zero =>
    intro l
    simp [splitOnPat]
  | succ f ih =>
    intro l
    rcases l with _ | ⟨c, rest⟩
    · simp [splitOnPat]
    · rw [splitOnPat]
      by_cases h : pat ≠ [] ∧ pat.isPrefixOf (c :: rest)
      · rw [if_pos h]
        simp
      · rw [if_neg h]
        rcases hs : splitOnPat pat f rest with _ | ⟨p, ps⟩
        · simp
        · simp

theorem joinWith_cons_cons (sep : List Char) (c : Char) (p : List Char)
    (ps : List (List Char)) :
    joinWith sep ((c :: p) :: ps) = c :: joinWith sep (p :: ps) := by
  rcases ps with _ | ⟨q, qs⟩
  · rfl
  · rfl

theorem split_join_replace (pat rep : List Char) :
    ∀ (fuel : Nat) (l : List Char),
      joinWith pat (splitOnPat pat fuel l) = l ∧
        replaceAux pat rep fuel l = joinWith rep (splitOnPat pat fuel l) := by
  intro fuel
  induction fuel with
  | zero =>
    intro l
    rcases l with _ | ⟨c, rest⟩
    · exact ⟨rfl, rfl⟩
    · exact ⟨rfl, rfl⟩
  | succ f ih =>
    intro l
    rcases l with _ | ⟨c, rest⟩
    · exact ⟨rfl, rfl⟩
    · rw [splitOnPat, replaceAux]
      by_cases h : pat ≠ [] ∧ pat.isPrefixOf (c :: rest)
      · rw [if_pos h, if_pos h]
        obtain ⟨t, ht⟩ := List.isPrefixOf_iff_prefix.mp h.2
        have hdrop : (c :: rest).drop pat.length = t := by
          rw [← ht]
          exact List.drop_left pat t
        have hih := ih ((c :: rest).drop pat.length)
        rcases hs : splitOnPat pat f ((c :: rest).drop pat.length) with _ | ⟨p, ps⟩
        · exact absurd hs (splitOnPat_ne_nil pat f _)
        · rw [hs] at hih
          constructor
          · show joinWith pat ([] :: p :: ps) = c :: rest
            show [] ++ pat ++ joinWith pat (p :: ps) = c :: rest
            rw [List.nil_append, hih.1, hdrop, ht]
          · show rep ++ replaceAux pat rep f ((c :: rest).drop pat.length) =
              joinWith rep ([] :: p :: ps)
            show rep ++ replaceAux pat rep f ((c :: rest).drop pat.length) =
              [] ++ rep ++ joinWith rep (p :: ps)
            rw [List.nil_append, hih.2]
      · rw [if_neg h, if_neg h]
        have hih := ih rest
        rcases hs : splitOnPat pat f rest with _ | ⟨p, ps⟩
        · exact absurd hs (splitOnPat_ne_nil pat f _)
        · rw [hs] at hih
          constructor
          · rw [joinWith_cons_cons, hih.1]
          · rw [joinWith_cons_cons, ← hih.2]

theorem substitute_eq_foldl :
    ∀ (deps : List String) (resolved : List (String × String)) (t p : String),
      substitute resolved deps t = some p ↔
        ((∀ d ∈ deps, (lookupA resolved d).isSome = true) ∧
          p = deps.foldl
            (fun acc d => replaceAll acc ("[[" ++ d ++ "]]") ((lookupA resolved d).getD ""))
            t) := by
  intro deps
  induction deps with
  | nil =>
    intro resolved t p
    simp only [substitute, Option.some.injEq, List.foldl_nil]
    constructor
    · intro h
      exact ⟨by simp, h.symm⟩
    · intro h
      exact h.2.symm
  | cons d ds ih =>
    intro resolved t p
    rw [substitute]
    rcases hl : lookupA resolved d with _ | v
    · simp only [List.foldl_cons]
      constructor
      · intro h
        simp at h
      · intro h
        have := h.1 d (List.mem_cons_self _ _)
        rw [hl] at this
        simp at this
    · rw [ih]
      simp only [List.foldl_cons, hl, Option.getD_some, List.mem_cons]
      constructor
      · intro h
        refine ⟨?_, h.2⟩
        intro x hx
        rcases hx with rfl | hx'
        · rw [hl]
          rfl
        · exact h.1 x hx'
      · intro h
        exact ⟨fun x hx => h.1 x (Or.inr hx), h.2⟩

/-- C6 (amended): for every Dynamic fragment the prompt sent to the
generation operation is obtained from the template by applying, for each
dependency in dependency-list order, a full replacement of every
non-overlapping left-to-right occurrence of `[[d]]` in the CURRENT text
by `d`'s resolved value (so a dependency occurring several times is
replaced at each occurrence); the replacement scan is characterised by
the split/join equations below.  Substituted values ARE re-scanned by the
replacements of later dependencies: reference-shaped text injected by an
earlier substitution is replaced when its name occurs later in the
dependency list (see the counterexample). -/
theorem claim_C6 :
    (∀ (deps : List String) (resolved : List (String × String)) (t p : String),
      substitute resolved deps t = some p ↔
        ((∀ d ∈ deps, (lookupA resolved d).isSome = true) ∧
          p = deps.foldl
            (fun acc d => replaceAll acc ("[[" ++ d ++ "]]") ((lookupA resolved d).getD ""))
            t))
    ∧ (∀ (pat rep : List Char) (fuel : Nat) (l : List Char),
        joinWith pat (splitOnPat pat fuel l) = l ∧
          replaceAux pat rep fuel l = joinWith rep (splitOnPat pat fuel l)) :=
  ⟨substitute_eq_foldl, fun pat rep fuel l => split_join_replace pat rep fuel l⟩

/-- Witness for C6: a dependency referenced twice has both occurrences
replaced by one substitution pass. -/
theorem claim_C6_witness :
    substitute [("a", "A")] ["a"] "x [[a]] y [[a]] z" = some "x A y A z" :=
  (claim_C6.1 ["a"] [("a", "A")] "x [[a]] y [[a]] z" "x A y A z").mpr
    ⟨by intro d hd; simp at hd; subst hd; rfl, by rfl⟩

/-- Counterexample to C6 as stated: the value substituted for `a`
contains the reference text `[[b]]`, and the later replacement pass for
the dependency `b` rewrites it, so substituted values are not exempt from
further replacement.  The claim's prediction would be `[[b]] B`. -/
theorem claim_C6_counterexample :
    substitute [("a", "[[b]]"), ("b", "B")] ["a", "b"] "[[a]] [[b]]" = some "B B"
    ∧ ("B B" : String) ≠ "[[b]] B" :=
  ⟨rfl, by decide⟩

theorem lookupA_updateA {α : Type} :
    ∀ (m : List (String × α)) (k : String) (v : α) (n : String),
      lookupA (updateA m k v) n = if k = n then some v else lookupA m n := by
  intro m
  induction m with
  | nil =>
    intro k v n
    simp [updateA, lookupA]
  | cons p rest ih =>
    intro k v n
    obtain ⟨k', v'⟩ := p
    rw [updateA]
    by_cases hk : k' = k
    · subst hk
      by_cases hn : k' = n
      · subst hn
        simp [lookupA]
      · simp [lookupA, hn]
    · rw [if_neg hk]
      by_cases hn : k' = n
      · subst hn
        have : ¬ k = k' := fun he => hk he.symm
        simp [lookupA, this]
      · simp only [lookupA, if_neg hn]
        exact ih k v n

theorem process_single_prompt_fst (gen : String → Option String)
    (defs : List (String × String)) (g : Graph) (m : List (String × String))
    (name : String) (r : String × String × String)
    (h : process_single_prompt gen defs g m name = some r) : r.1 = name := by
  unfold process_single_prompt at h
  rcases hd : lookupA defs name with _ | template
  · rw [hd] at h
    simp at h
  · rw [hd] at h
    dsimp only at h
    rcases hdep : depsOf g name with _ | ⟨d, ds⟩
    · rw [hdep] at h
      simp only [Option.some.injEq] at h
      rw [← h]
    · rw [hdep] at h
      dsimp only at h
      rcases hs : substitute m (d :: ds) template with _ | prompt
      · rw [hs] at h
        simp at h
      · rw [hs] at h
        dsimp only at h
        rcases hg : gen prompt with _ | result
        · rw [hg] at h
          simp at h
        · rw [hg] at h
          simp only [Option.some.injEq] at h
          rw [← h]

theorem collectGroup_names (gen : String → Option String)
    (defs : List (String × String)) (g : Graph) (m : List (String × String)) :
    ∀ (comp : List String) (rs : List (String × String × String)),
      collectGroup gen defs g m comp = some rs → ∀ r ∈ rs, r.1 ∈ comp := by
  intro comp
  induction comp with
  | nil =>
    intro rs h r hr
    simp only [collectGroup, Option.some.injEq] at h
    subst h
    simp at hr
  | cons n ns ih =>
    intro rs h r hr
    rw [collectGroup] at h
    rcases hp : process_single_prompt gen defs g m n with _ | r0
    · rw [hp] at h
      simp at h
    · rw [hp] at h
      rcases hc : collectGroup gen defs g m ns with _ | rs0
      · rw [hc] at h
        simp at h
      · rw [hc] at h
        simp only [Option.some.injEq] at h
        subst h
        rcases List.mem_cons.mp hr with rfl | hr'
        · exact List.mem_cons.mpr (Or.inl (process_single_prompt_fst gen defs g m n r hp))
        · exact List.mem_cons_of_mem _ (ih rs0 hc r hr')

theorem insertByIdx_perm (grp : List String) (r : String × String × String) :
    ∀ l : List (String × String × String), (insertByIdx grp r l).Perm (r :: l) := by
  intro l
  induction l with
  | nil => simp [insertByIdx]
  | cons x xs ih =>
    rw [insertByIdx]
    by_cases h : groupIndex grp x.1 ≤ groupIndex grp r.1
    · rw [if_pos h]
      exact (ih.cons x).trans (List.Perm.swap r x xs)
    · rw [if_neg h]

theorem sortByGroup_perm (grp : List String) (rs : List (String × String × String)) :
    (sortByGroup grp rs).Perm rs := by
  unfold sortByGroup
  suffices h : ∀ (l acc : List (String × String × String)),
      (l.foldl (fun a r => insertByIdx grp r a) acc).Perm (l ++ acc) by
    have := h rs []
    simpa using this
  intro l
  induction l with
  | nil =>
    intro acc
    simp
  | cons r l' ih =>
    intro acc
    simp only [List.foldl_cons]
    refine (ih (insertByIdx grp r acc)).trans ?_
    refine (List.Perm.append_left l' (insertByIdx_perm grp r acc)).trans ?_
    exact List.perm_middle

theorem foldl_updateA_absent (n : String) :
    ∀ (rs : List (String × String × String)) (m : List (String × String)),
      (∀ r ∈ rs, r.1 ≠ n) → lookupA m n = none →
      lookupA (rs.foldl (fun acc r => updateA acc r.1 r.2.1) m) n = none := by
  intro rs
  induction rs with
  | nil =>
    intro m _ hm
    exact hm
  | cons r rs' ih =>
    intro m hne hm
    simp only [List.foldl_cons]
    refine ih (updateA m r.1 r.2.1) (fun x hx => hne x (List.mem_cons_of_mem _ hx)) ?_
    rw [lookupA_updateA, if_neg (hne r (List.mem_cons_self _ _))]
    exact hm

theorem runGroup_absent (gen : String → Option String)
    (defs : List (String × String)) (g : Graph) (grp comp : List String)
    (m : List (String × String)) (logs : List String)
    (m' : List (String × String)) (logs' : List String)
    (h : runGroup gen defs g grp comp m logs = some (m', logs'))
    (hcomp : ∀ x ∈ comp, x ∈ grp) (n : String) (hn : lookupA m n = none)
    (hng : n ∉ grp) : lookupA m' n = none := by
  unfold runGroup at h
  rcases grp with _ | ⟨x, grp1⟩
  · simp at h
  · rcases grp1 with _ | ⟨y, grp2⟩
    · dsimp only at h
      rcases hp : process_single_prompt gen defs g m x with _ | r
      · rw [hp] at h
        simp at h
      · rw [hp] at h
        simp only [Option.some.injEq, Prod.mk.injEq] at h
        obtain ⟨h1, -⟩ := h
        rw [← h1, lookupA_updateA]
        have hr1 : r.1 = x := process_single_prompt_fst gen defs g m x r hp
        rw [if_neg]
        · exact hn
        · rw [hr1]
          rintro rfl
          exact hng (List.mem_cons_self _ _)
    · dsimp only at h
      rcases hc : collectGroup gen defs g m comp with _ | rs
      · rw [hc] at h
        simp at h
      · rw [hc] at h
        dsimp only at h
        simp only [Option.some.injEq, Prod.mk.injEq] at h
        obtain ⟨h1, -⟩ := h
        rw [← h1]
        refine foldl_updateA_absent n _ m ?_ hn
        intro r hr
        have hrs : r ∈ rs := (sortByGroup_perm (x :: y :: grp2) rs).mem_iff.mp hr
        have hmem := collectGroup_names gen defs g m comp rs hc r hrs
        intro he
        rw [he] at hmem
        exact hng (hcomp n hmem)

/-- The completion orders supplied to the level loop are well-formed:
positionally, each one only mentions members of its level. -/
def schedsOk : List (List String) → List (List String) → Prop
  | [], _ => True
  | grp :: rest, scheds => (∀ n ∈ scheds.headD grp, n ∈ grp) ∧ schedsOk rest scheds.tail

theorem runGroups_absent (gen : String → Option String)
    (defs : List (String × String)) (g : Graph) :
    ∀ (done scheds : List (List String)) (m0 M : List (String × String))
      (logs0 logsF : List String),
      schedsOk done scheds →
      runGroups gen defs g done scheds m0 logs0 = some (M, logsF) →
      ∀ n, lookupA m0 n = none → (∀ grpd ∈ done, n ∉ grpd) → lookupA M n = none := by
  intro done
  induction done with
  | nil =>
    intro scheds m0 M logs0 logsF _ h n hn _
    simp only [runGroups, Option.some.injEq, Prod.mk.injEq] at h
    rw [← h.1]
    exact hn
  | cons grp rest ih =>
    intro scheds m0 M logs0 logsF hso h n hn hng
    rw [runGroups] at h
    rcases hg : runGroup gen defs g grp (scheds.headD grp) m0 logs0 with _ | ⟨m1, logs1⟩
    · rw [hg] at h
      simp at h
    · rw [hg] at h
      dsimp only at h
      have hn1 : lookupA m1 n = none :=
        runGroup_absent gen defs g grp (scheds.headD grp) m0 logs0 m1 logs1 hg
          hso.1 n hn (hng grp (List.mem_cons_self _ _))
      exact ih scheds.tail m1 M logs1 logsF hso.2 h n hn1
        (fun grpd hgd => hng grpd (List.mem_cons_of_mem _ hgd))

/-- C7: a failing fragment (missing dependency in the substitution, or a
failed generation call) aborts the whole run with no result.  First
conjunct: in sequential mode a failure at the head of the remaining order
produces `none` whatever fragments would have followed, so no fragment
after (in particular none depending on the failed one) is attempted.
Second conjunct: in parallel mode a failing level produces `none`
whatever levels would have followed, so no later level is started.  Third
conjunct: the resolved-value map produced by the completed levels binds
nothing but the initially bound names and the members of those levels —
so when a level fails, no fragment of any later level has an entry. -/
theorem claim_C7 (gen : String → Option String)
    (defs : List (String × String)) (g : Graph) :
    (∀ (name : String) (rest : List String) (m : List (String × String))
        (logs : List String),
      process_single_prompt gen defs g m name = none →
      execSeqGo gen defs g (name :: rest) m logs = none)
    ∧ (∀ (grp : List String) (rest scheds : List (List String))
        (m : List (String × String)) (logs : List String),
        runGroup gen defs g grp (scheds.headD grp) m logs = none →
        runGroups gen defs g (grp :: rest) scheds m logs = none)
    ∧ (∀ (done scheds : List (List String)) (m0 M : List (String × String))
        (logs0 logsF : List String),
        schedsOk done scheds →
        runGroups gen defs g done scheds m0 logs0 = some (M, logsF) →
        ∀ n, lookupA m0 n = none → (∀ grpd ∈ done, n ∉ grpd) →
          lookupA M n = none) := by
  refine ⟨?_, ?_, runGroups_absent gen defs g⟩
  · intro name rest m logs h
    rw [execSeqGo, h]
  · intro grp rest scheds m logs h
    rw [runGroups, h]

/-- A generation operation that always fails (models an external API that
errors on every call). -/
def genNone : String → Option String := fun _ => none

/-- Witness for C7: a fragment whose dependency is absent from the
resolved-value map aborts a sequential run with fragments still pending;
a failing level aborts a parallel run with levels still pending; and a
completed prefix of levels binds no name outside the initial map and its
levels' members. -/
theorem claim_C7_witness :
    execSeqGo genNone [("b", "use [[x]]")] [("b", ["x"])] ["b", "c"]
        [(INPUT_NODE_NAME, "i")] [] = none
    ∧ runGroups genNone [("b", "use [[x]]")] [("b", ["x"])] [["b"], ["later"]] []
        [(INPUT_NODE_NAME, "i")] [] = none
    ∧ lookupA (updateA [(INPUT_NODE_NAME, "i")] "b2" "static") "zz" = none :=
  ⟨(claim_C7 genNone [("b", "use [[x]]")] [("b", ["x"])]).1 "b" ["c"]
      [(INPUT_NODE_NAME, "i")] [] rfl,
   (claim_C7 genNone [("b", "use [[x]]")] [("b", ["x"])]).2.1 ["b"] [["later"]] []
      [(INPUT_NODE_NAME, "i")] [] rfl,
   (claim_C7 genNone [("b2", "static")] [("b2", [])]).2.2 [["b2"]] []
      [(INPUT_NODE_NAME, "i")] (updateA [(INPUT_NODE_NAME, "i")] "b2" "static") [] _
      ⟨by simp, trivial⟩ rfl "zz" rfl
      (by intro grpd hgd; simp at hgd; subst hgd; simp)⟩

/-- C8 (amended): the engines never report an error condition for a run
in which no value was bound to the output name: on success the returned
final value is exactly the resolved-value map entry for `output` when one
exists, and otherwise the literal placeholder string
`Error: Final output not generated.` returned as part of a normal
success result. -/
theorem claim_C8 :
    (∀ (gen : String → Option String) (order : List String)
        (defs : List (String × String)) (g : Graph) (init v l : String),
      execute_prompt_chain gen order defs g init = some (v, l) →
      ∃ m logs, execSeqGo gen defs g order [(INPUT_NODE_NAME, init)] [] = some (m, logs) ∧
        l = logSep.intercalate logs ∧
        ((∃ w, lookupA m "output" = some w ∧ v = w) ∨
          (lookupA m "output" = none ∧ v = "Error: Final output not generated.")))
    ∧ (∀ (gen : String → Option String) (groups scheds : List (List String))
        (defs : List (String × String)) (g : Graph) (init v l : String),
      execute_prompt_chain_parallel gen groups scheds defs g init = some (v, l) →
      ∃ m logs, runGroups gen defs g groups scheds [(INPUT_NODE_NAME, init)] [] =
          some (m, logs) ∧
        l = logSep.intercalate logs ∧
        ((∃ w, lookupA m "output" = some w ∧ v = w) ∨
          (lookupA m "output" = none ∧ v = "Error: Final output not generated."))) := by
  constructor
  · intro gen order defs g init v l h
    unfold execute_prompt_chain at h
    rcases hc : execSeqGo gen defs g order [(INPUT_NODE_NAME, init)] [] with _ | ⟨m, logs⟩
    · rw [hc] at h
      simp at h
    · rw [hc] at h
      dsimp only at h
      simp only [Option.some.injEq, Prod.mk.injEq] at h
      refine ⟨m, logs, rfl, h.2.symm, ?_⟩
      rcases ho : lookupA m "output" with _ | w
      · rw [ho] at h
        exact Or.inr ⟨rfl, h.1.symm⟩
      · rw [ho] at h
        exact Or.inl ⟨w, rfl, h.1.symm⟩
  · intro gen groups scheds defs g init v l h
    unfold execute_prompt_chain_parallel at h
    rcases hc : runGroups gen defs g groups scheds [(INPUT_NODE_NAME, init)] []
      with _ | ⟨m, logs⟩
    · rw [hc] at h
      simp at h
    · rw [hc] at h
      dsimp only at h
      simp only [Option.some.injEq, Prod.mk.injEq] at h
      refine ⟨m, logs, rfl, h.2.symm, ?_⟩
      rcases ho : lookupA m "output" with _ | w
      · rw [ho] at h
        exact Or.inr ⟨rfl, h.1.symm⟩
      · rw [ho] at h
        exact Or.inl ⟨w, rfl, h.1.symm⟩

/-- Witness for C8 on a run that binds nothing to `output`. -/
theorem claim_C8_witness :
    execute_prompt_chain genNone [] [] [] "i" =
        some ("Error: Final output not generated.", "")
    ∧ ∃ m logs, execSeqGo genNone [] [] [] [(INPUT_NODE_NAME, "i")] [] = some (m, logs) ∧
        ("" : String) = logSep.intercalate logs ∧
        ((∃ w, lookupA m "output" = some w ∧
            ("Error: Final output not generated." : String) = w) ∨
          (lookupA m "output" = none ∧
            ("Error: Final output not generated." : String) =
              "Error: Final output not generated.")) :=
  ⟨rfl, claim_C8.1 genNone [] [] [] "i" "Error: Final output not generated." "" rfl⟩

/-- Counterexample to C8 as stated: a run that completes with no value
bound to the output name does NOT report an error condition — the engine
returns a normal success pair whose final value is the placeholder
string. -/
theorem claim_C8_counterexample :
    execute_prompt_chain genNone [] [] [] "i" =
        some ("Error: Final output not generated.", "")
    ∧ execute_prompt_chain genNone [] [] [] "i" ≠ none :=
  ⟨rfl, fun hc => by
    rw [show execute_prompt_chain genNone [] [] [] "i" =
      some ("Error: Final output not generated.", "") from rfl] at hc
    exact Option.noConfusion hc⟩

theorem groupIndex_cons_ne (x y : String) (xs : List String) (h : x ≠ y) :
    groupIndex (x :: xs) y = groupIndex xs y + 1 := by
  rw [groupIndex, if_neg h]

theorem groupIndex_inj (grp : List String) (hnd : grp.Nodup) :
    ∀ a ∈ grp, ∀ b ∈ grp, groupIndex grp a = groupIndex grp b → a = b := by
  induction grp with
  | nil =>
    intro a ha
    simp at ha
  | cons x xs ih =>
    intro a ha b hb heq
    rw [List.nodup_cons] at hnd
    rcases List.mem_cons.mp ha with rfl | ha' <;> rcases List.mem_cons.mp hb with rfl | hb'
    · rfl
    · exfalso
      have hne : a ≠ b := by
        rintro rfl
        exact hnd.1 hb'
      rw [groupIndex, if_pos rfl, groupIndex_cons_ne a b _ hne] at heq
      omega
    · exfalso
      have hne : b ≠ a := by
        rintro rfl
        exact hnd.1 ha'
      rw [groupIndex_cons_ne b a _ hne, groupIndex, if_pos rfl] at heq
      omega
    · have hna : x ≠ a := by
        rintro rfl
        exact hnd.1 ha'
      have hnb : x ≠ b := by
        rintro rfl
        exact hnd.1 hb'
      rw [groupIndex_cons_ne x a _ hna, groupIndex_cons_ne x b _ hnb] at heq
      exact ih hnd.2 a ha' b hb' (by omega)

theorem groupIndex_pairwise (grp : List String) (hnd : grp.Nodup) :
    List.Pairwise (fun a b => groupIndex grp a < groupIndex grp b) grp := by
  induction grp with
  | nil => exact List.Pairwise.nil
  | cons x xs ih =>
    rw [List.nodup_cons] at hnd
    rw [List.pairwise_cons]
    constructor
    · intro y hy
      have hne : x ≠ y := by
        rintro rfl
        exact hnd.1 hy
      rw [groupIndex, if_pos rfl, groupIndex_cons_ne x y _ hne]
      omega
    · refine (ih hnd.2).imp_of_mem ?_
      intro a b ha hb hlt
      have hna : x ≠ a := by
        rintro rfl
        exact hnd.1 ha
      have hnb : x ≠ b := by
        rintro rfl
        exact hnd.1 hb
      rw [groupIndex_cons_ne x a _ hna, groupIndex_cons_ne x b _ hnb]
      omega

theorem insertByIdx_sorted (grp : List String) (r : String × String × String) :
    ∀ l, List.Pairwise (fun a b => groupIndex grp a.1 ≤ groupIndex grp b.1) l →
      List.Pairwise (fun a b => groupIndex grp a.1 ≤ groupIndex grp b.1)
        (insertByIdx grp r l) := by
  intro l
  induction l with
  | nil =>
    intro _
    simp [insertByIdx]
  | cons x xs ih =>
    intro hp
    rw [List.pairwise_cons] at hp
    rw [insertByIdx]
    by_cases h : groupIndex grp x.1 ≤ groupIndex grp r.1
    · rw [if_pos h]
      rw [List.pairwise_cons]
      constructor
      · intro y hy
        rcases List.mem_cons.mp ((insertByIdx_perm grp r xs).mem_iff.mp hy) with rfl | hy'
        · exact h
        · exact hp.1 y hy'
      · exact ih hp.2
    · rw [if_neg h]
      rw [List.pairwise_cons]
      constructor
      · intro y hy
        rcases List.mem_cons.mp hy with rfl | hy'
        · omega
        · have := hp.1 y hy'
          omega
      · exact List.pairwise_cons.mpr hp

theorem sortByGroup_sorted (grp : List String) (rs : List (String × String × String)) :
    List.Pairwise (fun a b => groupIndex grp a.1 ≤ groupIndex grp b.1)
      (sortByGroup grp rs) := by
  unfold sortByGroup
  suffices h : ∀ (l acc : List (String × String × String)),
      List.Pairwise (fun a b => groupIndex grp a.1 ≤ groupIndex grp b.1) acc →
      List.Pairwise (fun a b => groupIndex grp a.1 ≤ groupIndex grp b.1)
        (l.foldl (fun a r => insertByIdx grp r a) acc) from
    h rs [] List.Pairwise.nil
  intro l
  induction l with
  | nil =>
    intro acc hacc
    exact hacc
  | cons r l' ih =>
    intro acc hacc
    simp only [List.foldl_cons]
    exact ih (insertByIdx grp r acc) (insertByIdx_sorted grp r acc hacc)

theorem sorted_unique (grp : List String) (l1 l2 : List (String × String × String))
    (hperm : l1.Perm l2)
    (hs1 : List.Pairwise (fun a b => groupIndex grp a.1 ≤ groupIndex grp b.1) l1)
    (hs2 : List.Pairwise (fun a b => groupIndex grp a.1 ≤ groupIndex grp b.1) l2)
    (hgnd : grp.Nodup)
    (hmem : ∀ r ∈ l1, r.1 ∈ grp)
    (hknd : (l1.map (fun r => r.1)).Nodup) : l1 = l2 := by
  have hmem2 : ∀ r ∈ l2, r.1 ∈ grp := fun r hr => hmem r (hperm.mem_iff.mpr hr)
  have hknd2 : (l2.map (fun r => r.1)).Nodup := (hperm.map _).nodup_iff.mp hknd
  have hpne1 : List.Pairwise (fun a b => a.1 ≠ b.1) l1 := List.pairwise_map.mp hknd
  have hpne2 : List.Pairwise (fun a b => a.1 ≠ b.1) l2 := List.pairwise_map.mp hknd2
  have hlt1 : List.Pairwise (fun a b => groupIndex grp a.1 < groupIndex grp b.1) l1 := by
    refine (hs1.and hpne1).imp_of_mem ?_
    intro a b ha hb hab
    have hne : groupIndex grp a.1 ≠ groupIndex grp b.1 := by
      intro he
      exact hab.2 (groupIndex_inj grp hgnd a.1 (hmem a ha) b.1 (hmem b hb) he)
    omega
  have hlt2 : List.Pairwise (fun a b => groupIndex grp a.1 < groupIndex grp b.1) l2 := by
    refine (hs2.and hpne2).imp_of_mem ?_
    intro a b ha hb hab
    have hne : groupIndex grp a.1 ≠ groupIndex grp b.1 := by
      intro he
      exact hab.2 (groupIndex_inj grp hgnd a.1 (hmem2 a ha) b.1 (hmem2 b hb) he)
    omega
  haveI : IsAntisymm (String × String × String)
      (fun a b => groupIndex grp a.1 < groupIndex grp b.1) :=
    ⟨fun a b h1 h2 => absurd h2 (by omega)⟩
  exact List.eq_of_perm_of_sorted hperm hlt1 hlt2

theorem collectGroup_eq_map (gen : String → Option String)
    (defs : List (String × String)) (g : Graph) (m : List (String × String))
    (F : String → String × String × String) :
    ∀ (comp : List String),
      (∀ n ∈ comp, process_single_prompt gen defs g m n = some (F n)) →
      collectGroup gen defs g m comp = some (comp.map F) := by
  intro comp
  induction comp with
  | nil =>
    intro _
    rfl
  | cons n ns ih =>
    intro hF
    rw [collectGroup, hF n (List.mem_cons_self _ _),
      ih (fun x hx => hF x (List.mem_cons_of_mem _ hx))]
    rfl

/-- C9 (amended): in parallel mode the level loop sorts the collected
worker results back to the level's declaration order before writing the
map and the log (`group_results.sort(key=lambda x: group.index(x[0]))`),
so the log entries of one level appear in declaration order — NOT in
completion order — and the whole outcome of a level is independent of the
completion order; log entries of different levels appear in level order
because the levels are processed strictly in sequence. -/
theorem claim_C9 (gen : String → Option String) (defs : List (String × String))
    (g : Graph) (grp comp : List String) (m : List (String × String))
    (logs : List String) (hperm : comp.Perm grp) (hnd : grp.Nodup) (hne : grp ≠ [])
    (hsome : ∀ n ∈ grp, (process_single_prompt gen defs g m n).isSome = true) :
    ∃ rs, List.Forall₂ (fun n r => process_single_prompt gen defs g m n = some r) grp rs ∧
      runGroup gen defs g grp comp m logs =
        some (rs.foldl (fun acc r => updateA acc r.1 r.2.1) m,
          logs ++ rs.map (fun r => r.2.2)) ∧
      runGroup gen defs g grp comp m logs = runGroup gen defs g grp grp m logs := by
  have hF : ∀ n ∈ grp, process_single_prompt gen defs g m n =
      some ((process_single_prompt gen defs g m n).getD ("", "", "")) := by
    intro n hn
    have hs := hsome n hn
    rcases hp : process_single_prompt gen defs g m n with _ | r
    · rw [hp] at hs
      simp at hs
    · rfl
  have hF1 : ∀ n ∈ grp,
      ((process_single_prompt gen defs g m n).getD ("", "", "")).1 = n := by
    intro n hn
    exact process_single_prompt_fst gen defs g m n _ (hF n hn)
  have hcompg : ∀ n ∈ comp, n ∈ grp := fun n hn => hperm.mem_iff.mp hn
  refine ⟨grp.map (fun n => (process_single_prompt gen defs g m n).getD ("", "", "")),
    ?_, ?_⟩
  · rw [List.forall₂_map_right_iff, List.forall₂_same]
    exact hF
  · have hsortC : sortByGroup grp
        (comp.map (fun n => (process_single_prompt gen defs g m n).getD ("", "", ""))) =
        grp.map (fun n => (process_single_prompt gen defs g m n).getD ("", "", "")) := by
      have hmapeqC : comp.map
          (fun n => ((process_single_prompt gen defs g m n).getD ("", "", "")).1) = comp := by
        have : ∀ n ∈ comp,
            ((process_single_prompt gen defs g m n).getD ("", "", "")).1 = id n :=
          fun n hn => hF1 n (hcompg n hn)
        rw [List.map_congr_left this]
        exact List.map_id comp
      refine sorted_unique grp _ _ ?_ (sortByGroup_sorted grp _) ?_ hnd ?_ ?_
      · exact (sortByGroup_perm grp _).trans (hperm.map _)
      · rw [List.pairwise_map]
        refine (groupIndex_pairwise grp hnd).imp_of_mem ?_
        intro a b ha hb hlt
        rw [hF1 a ha, hF1 b hb]
        omega
      · intro r hr
        have hr2 := (sortByGroup_perm grp _).mem_iff.mp hr
        rw [List.mem_map] at hr2
        obtain ⟨n, hn, hrn⟩ := hr2
        rw [← hrn, hF1 n (hcompg n hn)]
        exact hcompg n hn
      · have hp2 : ((sortByGroup grp _).map (fun r => r.1)).Perm
            ((comp.map (fun n =>
              (process_single_prompt gen defs g m n).getD ("", "", ""))).map
                (fun r => r.1)) := (sortByGroup_perm grp _).map _
        refine hp2.nodup_iff.mpr ?_
        rw [List.map_map]
        have : (comp.map
            ((fun r => r.1) ∘
              fun n => (process_single_prompt gen defs g m n).getD ("", "", ""))) = comp := by
          have h2 : ∀ n ∈ comp,
              ((fun (r : String × String × String) => r.1) ∘
                fun n => (process_single_prompt gen defs g m n).getD ("", "", "")) n =
                id n := fun n hn => hF1 n (hcompg n hn)
          rw [List.map_congr_left h2]
          exact List.map_id comp
        rw [this]
        exact hperm.nodup_iff.mpr hnd
    have hsortG : sortByGroup grp
        (grp.map (fun n => (process_single_prompt gen defs g m n).getD ("", "", ""))) =
        grp.map (fun n => (process_single_prompt gen defs g m n).getD ("", "", "")) := by
      have hmapeqG : grp.map
          (fun n => ((process_single_prompt gen defs g m n).getD ("", "", "")).1) = grp := by
        have : ∀ n ∈ grp,
            ((process_single_prompt gen defs g m n).getD ("", "", "")).1 = id n :=
          fun n hn => hF1 n hn
        rw [List.map_congr_left this]
        exact List.map_id grp
      refine sorted_unique grp _ _ ?_ (sortByGroup_sorted grp _) ?_ hnd ?_ ?_
      · exact (sortByGroup_perm grp _).trans (List.Perm.refl _)
      · rw [List.pairwise_map]
        refine (groupIndex_pairwise grp hnd).imp_of_mem ?_
        intro a b ha hb hlt
        rw [hF1 a ha, hF1 b hb]
        omega
      · intro r hr
        have hr2 := (sortByGroup_perm grp _).mem_iff.mp hr
        rw [List.mem_map] at hr2
        obtain ⟨n, hn, hrn⟩ := hr2
        rw [← hrn, hF1 n hn]
        exact hn
      · have hp2 : ((sortByGroup grp _).map (fun r => r.1)).Perm
            ((grp.map (fun n =>
              (process_single_prompt gen defs g m n).getD ("", "", ""))).map
                (fun r => r.1)) := (sortByGroup_perm grp _).map _
        refine hp2.nodup_iff.mpr ?_
        rw [List.map_map]
        have : (grp.map
            ((fun r => r.1) ∘
              fun n => (process_single_prompt gen defs g m n).getD ("", "", ""))) = grp := by
          have h2 : ∀ n ∈ grp,
              ((fun (r : String × String × String) => r.1) ∘
                fun n => (process_single_prompt gen defs g m n).getD ("", "", "")) n =
                id n := fun n hn => hF1 n hn
          rw [List.map_congr_left h2]
          exact List.map_id grp
        rw [this]
        exact hnd
    rcases grp with _ | ⟨x, grp1⟩
    · exact absurd rfl hne
    · rcases grp1 with _ | ⟨y, grp2⟩
      · constructor
        · rw [runGroup, hF x (List.mem_cons_self _ _)]
          rfl
        · rfl
      · have hcollC := collectGroup_eq_map gen defs g m
          (fun n => (process_single_prompt gen defs g m n).getD ("", "", "")) comp
          (fun n hn => hF n (hcompg n hn))
        have hcollG := collectGroup_eq_map gen defs g m
          (fun n => (process_single_prompt gen defs g m n).getD ("", "", ""))
          (x :: y :: grp2) (fun n hn => hF n hn)
        constructor
        · rw [runGroup, hcollC]
          dsimp only
          rw [hsortC]
        · rw [runGroup, hcollC]
          dsimp only
          rw [hsortC]
          rw [runGroup, hcollG]
          dsimp only
          rw [hsortG]

/-- A deterministic generation operation used by concrete runs: it wraps
the prompt. -/
def genEcho : String → Option String := fun p => some ("R<" ++ p ++ ">")

/-- Witness for C9: a two-member level with the reversed completion order
still produces the declaration-order result. -/
theorem claim_C9_witness :
    ∃ rs, List.Forall₂
        (fun n r => process_single_prompt genEcho
          [("x", "x of [[input text]]"), ("y", "y of [[input text]]")]
          [("x", ["input text"]), ("y", ["input text"])]
          [(INPUT_NODE_NAME, "II")] n = some r) ["x", "y"] rs ∧
      runGroup genEcho [("x", "x of [[input text]]"), ("y", "y of [[input text]]")]
          [("x", ["input text"]), ("y", ["input text"])] ["x", "y"] ["y", "x"]
          [(INPUT_NODE_NAME, "II")] [] =
        some (rs.foldl (fun acc r => updateA acc r.1 r.2.1) [(INPUT_NODE_NAME, "II")],
          [] ++ rs.map (fun r => r.2.2)) ∧
      runGroup genEcho [("x", "x of [[input text]]"), ("y", "y of [[input text]]")]
          [("x", ["input text"]), ("y", ["input text"])] ["x", "y"] ["y", "x"]
          [(INPUT_NODE_NAME, "II")] [] =
        runGroup genEcho [("x", "x of [[input text]]"), ("y", "y of [[input text]]")]
          [("x", ["input text"]), ("y", ["input text"])] ["x", "y"] ["x", "y"]
          [(INPUT_NODE_NAME, "II")] [] :=
  claim_C9 genEcho [("x", "x of [[input text]]"), ("y", "y of [[input text]]")]
    [("x", ["input text"]), ("y", ["input text"])] ["x", "y"] ["y", "x"]
    [(INPUT_NODE_NAME, "II")] [] (List.Perm.swap "x" "y" []) (by decide)
    (by decide) (by decide)

/-- Counterexample to C9 as stated: with completion order `[y, x]`
(differing from the declaration order `[x, y]`) the produced log is still
in declaration order `[log x, log y]`, not in completion order, because
the code sorts the collected results by `group.index` before logging. -/
theorem claim_C9_counterexample :
    runGroup genEcho [("x", "x of [[input text]]"), ("y", "y of [[input text]]")]
        [("x", ["input text"]), ("y", ["input text"])] ["x", "y"] ["y", "x"]
        [(INPUT_NODE_NAME, "II")] [] =
      some ([(INPUT_NODE_NAME, "II"), ("x", "R<x of II>"), ("y", "R<y of II>")],
        [dynamicLog "x" "x of II" "R<x of II>", dynamicLog "y" "y of II" "R<y of II>"])
    ∧ [dynamicLog "x" "x of II" "R<x of II>", dynamicLog "y" "y of II" "R<y of II>"] ≠
      [dynamicLog "y" "y of II" "R<y of II>", dynamicLog "x" "x of II" "R<x of II>"] :=
  ⟨rfl, by decide⟩

theorem runGroups_singletons_eq_execSeqGo (gen : String → Option String)
    (defs : List (String × String)) (g : Graph) :
    ∀ (names : List String) (scheds : List (List String))
      (m : List (String × String)) (logs : List String),
      runGroups gen defs g (names.map fun n => [n]) scheds m logs =
        execSeqGo gen defs g names m logs := by
  intro names
  induction names with
  | nil =>
    intro scheds m logs
    rfl
  | cons n ns ih =>
    intro scheds m logs
    rw [List.map_cons, runGroups, execSeqGo]
    rcases hp : process_single_prompt gen defs g m n with _ | r
    · rw [show runGroup gen defs g [n] (scheds.headD [n]) m logs = none by
        rw [runGroup, hp]]
    · rw [show runGroup gen defs g [n] (scheds.headD [n]) m logs =
        some (updateA m r.1 r.2.1, logs ++ [r.2.2]) by rw [runGroup, hp]]
      dsimp only
      exact ih scheds.tail (updateA m r.1 r.2.1) (logs ++ [r.2.2])

/-- C4: on the three-node chain (`a` static, `b` references `a`, `output`
references `b`), the Depth Grouper produces the singleton levels
`[[a], [b], [output]]`, the Order Resolver produces `[a, b, output]`, and
for every deterministic generation operation, any templates and any
initial input, parallel execution over those levels returns exactly the
same result (final value and step log, hence the same multiset of log
entries) as sequential execution over that order, for every completion
schedule. -/
theorem claim_C4 (gen : String → Option String) (ta tb tc init : String)
    (scheds : List (List String)) :
    resolve_execution_order [("a", []), ("b", ["a"]), ("output", ["b"])] =
        .ok ["a", "b", "output"]
    ∧ find_parallel_groups [("a", []), ("b", ["a"]), ("output", ["b"])] =
        some [["a"], ["b"], ["output"]]
    ∧ execute_prompt_chain_parallel gen [["a"], ["b"], ["output"]] scheds
        [("a", ta), ("b", tb), ("output", tc)]
        [("a", []), ("b", ["a"]), ("output", ["b"])] init =
      execute_prompt_chain gen ["a", "b", "output"]
        [("a", ta), ("b", tb), ("output", tc)]
        [("a", []), ("b", ["a"]), ("output", ["b"])] init := by
  refine ⟨rfl, rfl, ?_⟩
  unfold execute_prompt_chain_parallel execute_prompt_chain
  rw [show ([["a"], ["b"], ["output"]] : List (List String)) =
    (["a", "b", "output"].map fun n => [n]) from rfl]
  rw [runGroups_singletons_eq_execSeqGo]

theorem head_dropWhile_false (p : Char → Bool) :
    ∀ (l : List Char) (c : Char), (l.dropWhile p).head? = some c → p c = false := by
  intro l
  induction l with
  | nil =>
    intro c h
    simp [List.dropWhile] at h
  | cons x xs ih =>
    intro c h
    rw [List.dropWhile] at h
    by_cases hp : p x
    · rw [hp] at h
      exact ih c (by simpa using h)
    · simp only [Bool.not_eq_true] at hp
      rw [hp] at h
      simp only [List.head?_cons, Option.some.injEq] at h
      rw [← h]
      exact hp

theorem getLast_dropWhile_eq (p : Char → Bool) :
    ∀ (l : List Char), l.dropWhile p ≠ [] →
      (l.dropWhile p).getLast? = l.getLast? := by
  intro l
  induction l with
  | nil =>
    intro h
    simp [List.dropWhile] at h
  | cons x xs ih =>
    intro h
    rw [List.dropWhile] at h ⊢
    by_cases hp : p x
    · rw [hp] at h ⊢
      simp only at h ⊢
      rcases hxs : xs with _ | ⟨y, ys⟩
      · rw [hxs] at h
        simp [List.dropWhile] at h
      · rw [← hxs]
        rw [ih h]
        rw [hxs]
        exact List.getLast?_cons_cons.symm
    · simp only [Bool.not_eq_true] at hp
      rw [hp]

theorem stripChars_noEdge (l : List Char) :
    (∀ c, (stripChars l).head? = some c → pySpace c = false) ∧
    (∀ c, (stripChars l).getLast? = some c → pySpace c = false) := by
  unfold stripChars
  constructor
  · intro c hc
    rw [List.head?_reverse] at hc
    rcases hd : (l.dropWhile pySpace).reverse.dropWhile pySpace with _ | ⟨x, xs⟩
    · rw [hd] at hc
      simp at hc
    · have hne : (l.dropWhile pySpace).reverse.dropWhile pySpace ≠ [] := by
        rw [hd]
        simp
      rw [getLast_dropWhile_eq pySpace _ hne, List.getLast?_reverse] at hc
      exact head_dropWhile_false pySpace l c hc
  · intro c hc
    rw [List.getLast?_reverse] at hc
    exact head_dropWhile_false pySpace _ c hc

theorem parseDefsGo_keys_stripped :
    ∀ (fuel : Nat) (raw rest : List Char) (pair : String × String),
      pair ∈ parseDefsGo fuel raw rest →
      (∀ c, pair.1.data.head? = some c → pySpace c = false) ∧
      (∀ c, pair.1.data.getLast? = some c → pySpace c = false) := by
  intro fuel
  induction fuel with
  | zero =>
    intro raw rest pair h
    simp only [parseDefsGo, List.mem_singleton] at h
    subst h
    exact stripChars_noEdge raw
  | succ f ih =>
    intro raw rest pair h
    rw [parseDefsGo] at h
    rcases hm : findDefMatch rest with _ | ⟨pre, raw2, rest2⟩
    · rw [hm] at h
      simp only [List.mem_singleton] at h
      subst h
      exact stripChars_noEdge raw
    · rw [hm] at h
      rcases List.mem_cons.mp h with rfl | h'
      · exact stripChars_noEdge raw
      · exact ih raw2 rest2 pair h'

theorem lookupA_foldl_updateA_source {α : Type} :
    ∀ (pairs : List (String × α)) (init : List (String × α)) (n : String) (v : α),
      lookupA (pairs.foldl (fun acc p => updateA acc p.1 p.2) init) n = some v →
      (∃ c, (n, c) ∈ pairs) ∨ lookupA init n = some v := by
  intro pairs
  induction pairs with
  | nil =>
    intro init n v h
    exact Or.inr h
  | cons p ps ih =>
    intro init n v h
    simp only [List.foldl_cons] at h
    rcases ih (updateA init p.1 p.2) n v h with h' | h'
    · obtain ⟨c, hc⟩ := h'
      exact Or.inl ⟨c, List.mem_cons_of_mem _ hc⟩
    · rw [lookupA_updateA] at h'
      by_cases hp : p.1 = n
      · refine Or.inl ⟨p.2, ?_⟩
        rw [← hp]
        exact List.mem_cons_self _ _
      · rw [if_neg hp] at h'
        exact Or.inr h'

/-- C10: definition names are whitespace-trimmed before being stored as
keys of the Definition Table (no key starts or ends with a whitespace
character), while the Dependency Extractor returns reference names
verbatim; consequently a reference `[[ name ]]` yields the dependency
name `" name "`, distinct from the trimmed key `"name"`, which is not a
graph key and is therefore treated as an external leaf: the resolver
terminates recursion at it without appending it, and the definition it
was meant to reach stays unused. -/
theorem claim_C10 :
    (∀ (file n : String) (c : String), lookupA (parse_prompt_file file) n = some c →
      (∀ ch, n.data.head? = some ch → pySpace ch = false) ∧
      (∀ ch, n.data.getLast? = some ch → pySpace ch = false))
    ∧ find_dependencies "uses [[ name ]]" = [" name "]
    ∧ (" name " : String) ≠ "name"
    ∧ parse_prompt_file "[[output]] = uses [[ name ]]\n[[ name ]] = hello" =
        [("output", "uses [[ name ]]"), ("name", "hello")]
    ∧ lookupA (build_dependency_graph
        (parse_prompt_file "[[output]] = uses [[ name ]]\n[[ name ]] = hello"))
        " name " = none
    ∧ resolve_execution_order (build_dependency_graph
        (parse_prompt_file "[[output]] = uses [[ name ]]\n[[ name ]] = hello")) =
        .ok ["output"] := by
  refine ⟨?_, rfl, by decide, rfl, rfl, rfl⟩
  intro file n c h
  unfold parse_prompt_file at h
  rcases hm : findDefMatch file.data with _ | ⟨pre, raw, rest⟩
  · rw [hm] at h
    simp [lookupA] at h
  · rw [hm] at h
    dsimp only at h
    rcases lookupA_foldl_updateA_source _ [] n c h with h' | h'
    · obtain ⟨c', hc'⟩ := h'
      exact parseDefsGo_keys_stripped rest.length raw rest (n, c') hc'
    · simp [lookupA] at h'

/-- Witness for C10: the general key-trimming conjunct applied to a
concrete prompt file whose definition name carries surrounding blanks. -/
theorem claim_C10_witness :
    lookupA (parse_prompt_file "[[ name ]] = hello") "name" = some "hello"
    ∧ ((∀ ch, ("name" : String).data.head? = some ch → pySpace ch = false) ∧
       (∀ ch, ("name" : String).data.getLast? = some ch → pySpace ch = false)) :=
  ⟨rfl, claim_C10.1 "[[ name ]] = hello" "name" "hello" rfl⟩
